import Mathlib

set_option maxHeartbeats 1000000
set_option maxRecDepth 4000

/- Verification development for the Biconomy exchange connector
   (hummingbot/connector/exchange/biconomy).

   Venue payloads are loosely typed Python values; they are modelled by the
   JVal type below.  Decimal and float coercions are modelled over the
   rationals.  The non-finite Decimal specials (NaN, Infinity) and the exact
   textual rendering of floats and containers are outside the scope of the
   properties checked here; the corresponding cases of the helper functions
   are marked where they occur. -/

deriving instance DecidableEq for Except

/-- A JSON-like Python value as handled by the connector: None, bool, int,
float (as a rational), str, list, dict. -/
inductive JVal where
  | jnull
  | jbool (b : Bool)
  | jint (n : Int)
  | jrat (q : Rat)
  | jstr (s : String)
  | jlist (l : List JVal)
  | jdict (fs : List (String × JVal))

/-- First binding of a key in a dict, as Python dict lookup (keys are unique
in a Python dict, so first match is the match). -/
def lookupField (fs : List (String × JVal)) (k : String) : Option JVal :=
  match fs with
  | [] => none
  | (k2, v) :: rest => if k2 = k then some v else lookupField rest k

/-- Python dict.get(k): the stored value, or None when the key is absent. -/
def jGet (fs : List (String × JVal)) (k : String) : JVal :=
  (lookupField fs k).getD .jnull

/-- Python truthiness of a value. -/
def pyTruthy (v : JVal) : Bool :=
  match v with
  | .jnull => false
  | .jbool b => b
  | .jint n => n != 0
  | .jrat q => q != 0
  | .jstr s => s != ""
  | .jlist l => !l.isEmpty
  | .jdict fs => !fs.isEmpty

/-- Python str() of a value.  The rendering of floats, lists and dicts is
abstracted; no checked property depends on it. -/
def pyStr (v : JVal) : String :=
  match v with
  | .jnull => "None"
  | .jbool true => "True"
  | .jbool false => "False"
  | .jint n => toString n
  | .jstr s => s
  | .jrat q => toString q
  | .jlist _ => "[...]"
  | .jdict _ => "<dict>"

/-- Python (a or b): a when a is truthy, else b. -/
def pyOrV (a b : JVal) : JVal :=
  if pyTruthy a then a else b

/-- Numeric value of a list of decimal digits. -/
def digitsVal (cs : List Char) : Nat :=
  cs.foldl (fun a c => a * 10 + (c.toNat - 48)) 0

/-- Nonempty and all decimal digits. -/
def isDigits (cs : List Char) : Bool :=
  !cs.isEmpty && cs.all (·.isDigit)

/-- Split a character list at the first character satisfying p; the second
component starts with that character when one exists. -/
def breakOnChar (p : Char → Bool) : List Char → List Char × List Char
  | [] => ([], [])
  | c :: rest =>
    if p c then ([], c :: rest)
    else
      let r := breakOnChar p rest
      (c :: r.1, r.2)

/-- Strip one optional leading sign. -/
def takeSign : List Char → Int × List Char
  | '+' :: rest => (1, rest)
  | '-' :: rest => (-1, rest)
  | cs => (1, cs)

/-- Strip surrounding whitespace from a character list. -/
def trimChars (cs : List Char) : List Char :=
  ((cs.dropWhile Char.isWhitespace).reverse.dropWhile Char.isWhitespace).reverse

/-- Python str.lower(), character by character (the builtin String.toLower
does not evaluate under the kernel). -/
def strLower (s : String) : String :=
  ⟨s.toList.map Char.toLower⟩

/-- Python str.upper(), character by character. -/
def strUpper (s : String) : String :=
  ⟨s.toList.map Char.toUpper⟩

/-- Rational addition in a form the kernel evaluates (Rat.divInt reduces,
the arithmetic instances of Rat do not); qAdd_eq identifies it with the
standard addition. -/
def qAdd (a b : Rat) : Rat :=
  Rat.divInt (a.num * b.den + b.num * a.den) (a.den * b.den)

/-- Rational negation in kernel-evaluable form; see qNeg_eq. -/
def qNeg (a : Rat) : Rat :=
  Rat.divInt (-a.num) a.den

/-- Rational subtraction in kernel-evaluable form; see qSub_eq. -/
def qSub (a b : Rat) : Rat :=
  qAdd a (qNeg b)

/-- Rational multiplication in kernel-evaluable form; see qMul_eq. -/
def qMul (a b : Rat) : Rat :=
  Rat.divInt (a.num * b.num) (a.den * b.den)

/-- Rational division in kernel-evaluable form; see qDiv_eq.  Division by
zero yields zero, as for the standard division. -/
def qDiv (a b : Rat) : Rat :=
  Rat.divInt (a.num * b.den) (a.den * b.num)

/-- Rational absolute value in kernel-evaluable form; see qAbs_eq. -/
def qAbs (a : Rat) : Rat :=
  Rat.divInt (a.num.natAbs : Int) (a.den : Int)

theorem qAdd_eq (a b : Rat) : qAdd a b = a + b := by
  unfold qAdd
  rw [Rat.divInt_eq_div]
  push_cast
  conv_rhs => rw [← Rat.num_div_den a, ← Rat.num_div_den b]
  rw [div_add_div _ _ (by positivity : (a.den : ℚ) ≠ 0)
    (by positivity : (b.den : ℚ) ≠ 0)]
  ring_nf

theorem qNeg_eq (a : Rat) : qNeg a = -a := by
  unfold qNeg
  rw [Rat.divInt_eq_div]
  push_cast
  rw [neg_div, Rat.num_div_den]

theorem qSub_eq (a b : Rat) : qSub a b = a - b := by
  unfold qSub
  rw [qAdd_eq, qNeg_eq, sub_eq_add_neg]

theorem qMul_eq (a b : Rat) : qMul a b = a * b := by
  unfold qMul
  rw [Rat.divInt_eq_div]
  push_cast
  conv_rhs => rw [← Rat.num_div_den a, ← Rat.num_div_den b]
  rw [div_mul_div_comm]

theorem qDiv_eq (a b : Rat) : qDiv a b = a / b := by
  unfold qDiv
  by_cases hb : b = 0
  · subst hb
    simp
  · rw [Rat.divInt_eq_div]
    push_cast
    conv_rhs => rw [← Rat.num_div_den a, ← Rat.num_div_den b]
    have hbn : (b.num : ℚ) ≠ 0 := by
      simpa using Rat.num_ne_zero.mpr hb
    field_simp

theorem qAbs_eq (a : Rat) : qAbs a = |a| := by
  unfold qAbs
  rw [Rat.divInt_eq_div]
  push_cast [Int.cast_natAbs]
  conv_rhs => rw [← Rat.num_div_den a]
  rw [abs_div, abs_of_pos (by positivity : (0 : ℚ) < (a.den : ℚ))]

/-- Parse of a finite decimal literal, as accepted by Python Decimal(...)
(optional surrounding whitespace, optional sign, digits with at most one
point, optional exponent).  The non-finite specials are not modelled. -/
def parseDec (s : String) : Option Rat :=
  let cs := trimChars s.toList
  let sg := takeSign cs
  let parts := breakOnChar (fun c => c = 'e' || c = 'E') sg.2
  let expVal : Option Int :=
    match parts.2 with
    | [] => some 0
    | _ :: rest =>
      let es := takeSign rest
      if isDigits es.2 then some (es.1 * (digitsVal es.2 : Int)) else none
  match expVal with
  | none => none
  | some e =>
    let mant := breakOnChar (fun c => c = '.') parts.1
    let fp := match mant.2 with
      | [] => []
      | _ :: f => f
    if mant.1.all (·.isDigit) && fp.all (·.isDigit) &&
        !(mant.1.isEmpty && fp.isEmpty) then
      some (Rat.divInt
        (sg.1 * (digitsVal (mant.1 ++ fp) : Int) * ((10 ^ e.toNat : Nat) : Int))
        ((10 ^ (fp.length + (-e).toNat) : Nat) : Int))
    else
      none

/-- BiconomyExchange._decimal_from_value: defensive numeric coercion.
Decimal(str(value)) with every failure collapsed to zero; str() of None,
bools, lists and dicts never parses as a decimal, hence zero. -/
def decimalFromValue (v : JVal) : Rat :=
  match v with
  | .jnull => 0
  | .jint n => (n : Rat)
  | .jrat q => q
  | .jstr s => (parseDec s).getD 0
  | .jbool _ => 0
  | .jlist _ => 0
  | .jdict _ => 0

/-- Canonical order lifecycle states used by the connector. -/
inductive OrderState where
  | OPEN
  | PENDING_CANCEL
  | CANCELED
  | FILLED
  | FAILED
deriving DecidableEq

/-- Python isinstance(v, int) view of a value (bools are ints in Python,
True counting as 1 and False as 0). -/
def statusAsInt (v : JVal) : Option Int :=
  match v with
  | .jint n => some n
  | .jbool b => some (if b then 1 else 0)
  | _ => none

/-- Python (v in (True, 1)): membership by equality, so bool True and the
numbers equal to 1 qualify. -/
def eqTrueOrOne (v : JVal) : Bool :=
  match v with
  | .jbool b => b
  | .jint n => n == 1
  | .jrat q => q == 1
  | _ => false

/-- The falsy-coalescing chain
payload.get("left") or payload.get("remain") or
payload.get("unfilled_amount") or payload.get("remain_amount")
from BiconomyExchange._order_state_from_status. -/
def remainingChain (fs : List (String × JVal)) : JVal :=
  pyOrV (pyOrV (pyOrV (jGet fs "left") (jGet fs "remain"))
      (jGet fs "unfilled_amount"))
    (jGet fs "remain_amount")

/-- Tail of BiconomyExchange._order_state_from_status after the status
checks: the is_cancel flag, then the remaining-amount chain. -/
def orderStateAfterStr (fs : List (String × JVal)) : OrderState :=
  if eqTrueOrOne (jGet fs "is_cancel") then .CANCELED
  else
    match remainingChain fs with
    | .jnull => .OPEN
    | v => if decimalFromValue v = 0 then .FILLED else .OPEN

/-- BiconomyExchange._order_state_from_status after the integer branch:
string statuses, then the rest. -/
def orderStateAfterInt (fs : List (String × JVal)) (status : JVal) : OrderState :=
  match status with
  | .jstr s =>
    let lowered := strLower s
    if lowered = "filled" ∨ lowered = "finished" ∨ lowered = "done" ∨
        lowered = "success" then .FILLED
    else if lowered = "cancelled" ∨ lowered = "canceled" ∨
        lowered = "cancel" then .CANCELED
    else orderStateAfterStr fs
  | _ => orderStateAfterStr fs

/-- BiconomyExchange._order_state_from_status.  Integer status codes are
looked up in ORDER_STATE_MAP (1 and 2 map to OPEN, 3 to FILLED); other
codes fall through to the string branch. -/
def orderStateFromStatus (fs : List (String × JVal)) : OrderState :=
  match statusAsInt (jGet fs "status") with
  | some n =>
    if n = 1 ∨ n = 2 then .OPEN
    else if n = 3 then .FILLED
    else orderStateAfterInt fs (jGet fs "status")
  | none => orderStateAfterInt fs (jGet fs "status")

/-- One rule of the specification rule table: a predicate on the payload
with the state produced when the rule fires. -/
def OrderRule :=
  List (String × JVal) → Option OrderState

/-- Top-to-bottom evaluation of an ordered rule table, defaulting to OPEN. -/
def applyRules (rules : List OrderRule) (fs : List (String × JVal)) : OrderState :=
  match rules with
  | [] => .OPEN
  | r :: rest =>
    match r fs with
    | some st => st
    | none => applyRules rest fs

/-- Spec rule: numeric status codes for new/updated give Open, finished
gives Filled. -/
def ruleNumericStatus : OrderRule := fun fs =>
  match statusAsInt (jGet fs "status") with
  | some n =>
    if n = 1 ∨ n = 2 then some .OPEN
    else if n = 3 then some .FILLED
    else none
  | none => none

/-- Spec rule: string statuses filled/finished/done/success give Filled. -/
def ruleFilledStr : OrderRule := fun fs =>
  match jGet fs "status" with
  | .jstr s => if strLower s ∈ ["filled", "finished", "done", "success"]
      then some .FILLED else none
  | _ => none

/-- Spec rule: string statuses cancelled/canceled/cancel give Canceled. -/
def ruleCanceledStr : OrderRule := fun fs =>
  match jGet fs "status" with
  | .jstr s => if strLower s ∈ ["cancelled", "canceled", "cancel"]
      then some .CANCELED else none
  | _ => none

/-- Spec rule: an explicit cancel flag gives Canceled. -/
def ruleCancelFlag : OrderRule := fun fs =>
  if eqTrueOrOne (jGet fs "is_cancel") then some .CANCELED else none

/-- Remaining-amount value as the specification (amended) describes it: the
first truthy value among the left/remain/unfilled_amount/remain_amount
fields, or the value of remain_amount when none is truthy. -/
def specRemainingValue (fs : List (String × JVal)) : JVal :=
  let vals := [jGet fs "left", jGet fs "remain", jGet fs "unfilled_amount",
    jGet fs "remain_amount"]
  match vals.find? pyTruthy with
  | some v => v
  | none => jGet fs "remain_amount"

/-- Spec rule (amended): when the selected remaining-amount value is not
None and coerces to zero, the state is Filled. -/
def ruleRemainingZeroAmended : OrderRule := fun fs =>
  match specRemainingValue fs with
  | .jnull => none
  | v => if decimalFromValue v = 0 then some .FILLED else none

/-- The four remaining-amount field names. -/
def remainFields : List String :=
  ["left", "remain", "unfilled_amount", "remain_amount"]

/-- Spec rule as the claim states it: some remaining-amount field is present
(with a non-None value) and equals zero. -/
def ruleRemainingZeroOriginal : OrderRule := fun fs =>
  if remainFields.any (fun k =>
      match lookupField fs k with
      | some .jnull => false
      | some v => decide (decimalFromValue v = 0)
      | none => false)
  then some .FILLED else none

/-- The order-state mapping exactly as claim C2 words it. -/
def specOrderStateOriginal (fs : List (String × JVal)) : OrderState :=
  applyRules [ruleNumericStatus, ruleFilledStr, ruleCanceledStr,
    ruleCancelFlag, ruleRemainingZeroOriginal] fs

/-- The order-state mapping with the remaining-amount rule amended to the
falsy-coalescing field selection the code performs. -/
def specOrderStateAmended (fs : List (String × JVal)) : OrderState :=
  applyRules [ruleNumericStatus, ruleFilledStr, ruleCanceledStr,
    ruleCancelFlag, ruleRemainingZeroAmended] fs

theorem specRemainingValue_eq (fs : List (String × JVal)) :
    specRemainingValue fs = remainingChain fs := by
  unfold specRemainingValue remainingChain
  by_cases h1 : pyTruthy (jGet fs "left") <;>
    by_cases h2 : pyTruthy (jGet fs "remain") <;>
      by_cases h3 : pyTruthy (jGet fs "unfilled_amount") <;>
        by_cases h4 : pyTruthy (jGet fs "remain_amount") <;>
          simp [List.find?, pyOrV, h1, h2, h3, h4]

theorem orderStateAfterStr_eq (fs : List (String × JVal)) :
    orderStateAfterStr fs =
      applyRules [ruleCancelFlag, ruleRemainingZeroAmended] fs := by
  have h2 : ruleRemainingZeroAmended fs =
      (match remainingChain fs with
       | .jnull => none
       | v => if decimalFromValue v = 0 then some OrderState.FILLED else none) := by
    unfold ruleRemainingZeroAmended
    rw [specRemainingValue_eq]
  have happly : applyRules [ruleCancelFlag, ruleRemainingZeroAmended] fs =
      (match ruleCancelFlag fs with
       | some st => st
       | none =>
         match ruleRemainingZeroAmended fs with
         | some st => st
         | none => OrderState.OPEN) := rfl
  rw [happly, h2]
  unfold orderStateAfterStr ruleCancelFlag
  by_cases hc : eqTrueOrOne (jGet fs "is_cancel")
  · simp [hc]
  · simp only [hc, Bool.false_eq_true, if_false]
    cases hr : remainingChain fs with
    | jnull => rfl
    | jbool b =>
      by_cases hz : decimalFromValue (JVal.jbool b) = 0 <;> simp [hz]
    | jint n =>
      by_cases hz : decimalFromValue (JVal.jint n) = 0 <;> simp [hz]
    | jrat q =>
      by_cases hz : decimalFromValue (JVal.jrat q) = 0 <;> simp [hz]
    | jstr s =>
      by_cases hz : decimalFromValue (JVal.jstr s) = 0 <;> simp [hz]
    | jlist l =>
      by_cases hz : decimalFromValue (JVal.jlist l) = 0 <;> simp [hz]
    | jdict d =>
      by_cases hz : decimalFromValue (JVal.jdict d) = 0 <;> simp [hz]

/-- Claim C2 (counterexample): a payload whose only field is a numeric zero
remaining amount.  The claim as stated maps it to Filled (a remaining
field is present and equals zero), but the code's falsy-coalescing chain
skips the numeric zero and yields Open. -/
theorem c2_counterexample :
    orderStateFromStatus [("left", JVal.jint 0)] = OrderState.OPEN ∧
    specOrderStateOriginal [("left", JVal.jint 0)] = OrderState.FILLED ∧
    OrderState.OPEN ≠ OrderState.FILLED :=
  ⟨rfl, rfl, by decide⟩

/-- Claim C2 (amended): the derived canonical order state follows the fixed
rule table, with the remaining-amount rule amended to match the code's
falsy-coalescing lookup: the examined remaining value is the first truthy
one among left/remain/unfilled_amount/remain_amount (else the value of
remain_amount); when it is not None and coerces to zero the state is
Filled; numeric codes 1 and 2 map to Open and 3 to Filled; status strings
filled/finished/done/success map to Filled and cancelled/canceled/cancel
to Canceled; an explicit cancel flag maps to Canceled; the default is
Open. -/
theorem c2_order_state_table_amended (fs : List (String × JVal)) :
    orderStateFromStatus fs = specOrderStateAmended fs := by
  have happly : specOrderStateAmended fs =
      (match ruleNumericStatus fs with
       | some st => st
       | none =>
         match ruleFilledStr fs with
         | some st => st
         | none =>
           match ruleCanceledStr fs with
           | some st => st
           | none => applyRules [ruleCancelFlag, ruleRemainingZeroAmended] fs) := rfl
  rw [happly, ← orderStateAfterStr_eq]
  unfold orderStateFromStatus orderStateAfterInt ruleNumericStatus ruleFilledStr
    ruleCanceledStr
  cases hv : jGet fs "status" with
  | jnull => rfl
  | jbool b => cases b <;> simp [statusAsInt]
  | jint n =>
    by_cases h12 : n = 1 ∨ n = 2
    · simp [statusAsInt, h12]
    · by_cases h3 : n = 3
      · simp [statusAsInt, h12, h3]
      · simp [statusAsInt, h12, h3]
  | jrat q => rfl
  | jlist l => rfl
  | jdict d => rfl
  | jstr s =>
    by_cases hf : strLower s = "filled" ∨ strLower s = "finished" ∨
        strLower s = "done" ∨ strLower s = "success"
    · simp [statusAsInt, hf]
    · by_cases hc : strLower s = "cancelled" ∨ strLower s = "canceled" ∨
          strLower s = "cancel"
      · simp [statusAsInt, hf, hc]
      · simp [statusAsInt, hf, hc]

/-- Base fill amount of a deal entry: the falsy-coalescing chain
deal.get("amount") or deal.get("number") or deal.get("deal_stock"),
defensively coerced. -/
def dealBaseAmount (fs : List (String × JVal)) : Rat :=
  decimalFromValue (pyOrV (pyOrV (jGet fs "amount") (jGet fs "number"))
    (jGet fs "deal_stock"))

/-- Fill price of a deal entry as computed in
BiconomyExchange._all_trade_updates_for_order: the explicit price field,
or, when that coerces to a nonpositive value, (avg_price or deal_money)
divided by the base amount (zero when the base amount is zero). -/
def dealFillPrice (fs : List (String × JVal)) : Rat :=
  let base := dealBaseAmount fs
  let price := decimalFromValue (jGet fs "price")
  if price ≤ 0 then
    if base ≠ 0 then
      qDiv (decimalFromValue (pyOrV (jGet fs "avg_price") (jGet fs "deal_money"))) base
    else 0
  else price

/-- Fill price exactly as claim C3 words it: the explicit price when
present and positive, otherwise deal_money divided by the base amount. -/
def specFillPriceOriginal (fs : List (String × JVal)) : Rat :=
  let price := decimalFromValue (jGet fs "price")
  if 0 < price then price
  else qDiv (decimalFromValue (jGet fs "deal_money")) (dealBaseAmount fs)

/-- Fill price as claim C3 amended: the explicit price when present and
positive, otherwise the first truthy value among avg_price and deal_money,
coerced and divided by the base amount. -/
def specFillPriceAmended (fs : List (String × JVal)) : Rat :=
  let price := decimalFromValue (jGet fs "price")
  if 0 < price then price
  else qDiv (decimalFromValue (pyOrV (jGet fs "avg_price") (jGet fs "deal_money")))
    (dealBaseAmount fs)

/-- Deal entry with no explicit price, an avg_price of 10, deal_money of 50
and amount 5: the code divides avg_price by the amount and yields 2, while
the claim as stated demands deal_money / amount = 10. -/
def c3deal : List (String × JVal) :=
  [("amount", JVal.jstr "5"), ("avg_price", JVal.jstr "10"),
   ("deal_money", JVal.jstr "50")]

/-- Claim C3 (counterexample): when the explicit price is absent but
avg_price is present and truthy, the code divides avg_price (not
deal_money) by the base amount. -/
theorem c3_counterexample :
    dealBaseAmount c3deal = 5 ∧
    dealFillPrice c3deal = 2 ∧
    specFillPriceOriginal c3deal = 10 ∧
    (2 : Rat) ≠ 10 :=
  ⟨by decide, by decide, by decide, by decide⟩

/-- Claim C3 (amended): for every deal entry with positive base amount, the
fill price equals the explicit price field when it coerces to a positive
value, and otherwise equals (avg_price or deal_money) — the first truthy
of the two — divided by the base amount. -/
theorem c3_fill_price_amended (fs : List (String × JVal))
    (hbase : 0 < dealBaseAmount fs) :
    dealFillPrice fs = specFillPriceAmended fs := by
  unfold dealFillPrice specFillPriceAmended
  have hne : dealBaseAmount fs ≠ 0 := ne_of_gt hbase
  by_cases hp : 0 < decimalFromValue (jGet fs "price")
  · have : ¬ decimalFromValue (jGet fs "price") ≤ 0 := not_le.mpr hp
    simp [this, hp]
  · have : decimalFromValue (jGet fs "price") ≤ 0 := not_lt.mp hp
    simp [this, hp, hne]

/-- Witness for claim C3: a concrete deal entry with positive base amount,
evaluated through the amended theorem. -/
theorem c3_witness :
    0 < dealBaseAmount c3deal ∧ dealFillPrice c3deal = specFillPriceAmended c3deal :=
  ⟨by decide, c3_fill_price_amended c3deal (by decide)⟩

/-- Decimal(str(value)) without the defensive wrapper, as written inline in
the _update_balances snapshot loop: a value whose str() is not a decimal
literal raises (modelled as Except.error). -/
def pyDecimalOfValue (v : JVal) : Except Unit Rat :=
  match v with
  | .jint n => .ok (n : Rat)
  | .jrat q => .ok q
  | .jstr s =>
    match parseDec s with
    | some q => .ok q
    | none => .error ()
  | _ => .error ()

/-- Python str.upper() on the value of a falsy-coalescing chain: raises
unless the value is an actual string. -/
def pyUpper (v : JVal) : Except Unit String :=
  match v with
  | .jstr s => .ok (strUpper s)
  | _ => .error ()

/-- Asset-name chain of the _update_balances snapshot loop. -/
def balanceAssetChain (fs : List (String × JVal)) : JVal :=
  pyOrV (pyOrV (pyOrV (pyOrV (jGet fs "asset") (jGet fs "currency"))
    (jGet fs "coin")) (jGet fs "symbol")) (.jstr "")

/-- Available-amount chain of the _update_balances snapshot loop. -/
def availableChain (fs : List (String × JVal)) : JVal :=
  pyOrV (pyOrV (pyOrV (jGet fs "available") (jGet fs "free"))
    (jGet fs "available_balance")) (.jstr "0")

/-- Frozen-amount chain of the _update_balances snapshot loop. -/
def freezeChain (fs : List (String × JVal)) : JVal :=
  pyOrV (pyOrV (pyOrV (jGet fs "freeze") (jGet fs "frozen"))
    (jGet fs "locked")) (.jstr "0")

/-- Other-frozen chain of the _update_balances snapshot loop. -/
def otherFreezeChain (fs : List (String × JVal)) : JVal :=
  pyOrV (pyOrV (jGet fs "other_freeze") (jGet fs "other_locked")) (.jstr "0")

/-- One iteration of the _update_balances snapshot loop: the
(asset, available, total) record it stores, none when the entry is skipped
for lack of an asset name, or an error when a raw Decimal conversion (or
.upper() on a non-string) raises. -/
def processBalanceEntry (fs : List (String × JVal)) :
    Except Unit (Option (String × Rat × Rat)) := do
  let assetU ← pyUpper (balanceAssetChain fs)
  if assetU = "" then
    return none
  else
    let av ← pyDecimalOfValue (availableChain fs)
    let fr ← pyDecimalOfValue (freezeChain fs)
    let ofr ← pyDecimalOfValue (otherFreezeChain fs)
    return some (assetU, av, qAdd (qAdd av fr) ofr)

/-- The _update_balances snapshot loop over a list of normalized balance
entries: the records stored, or an error aborting the whole payload at the
first raising entry. -/
def processBalanceEntries (entries : List (List (String × JVal))) :
    Except Unit (List (String × Rat × Rat)) :=
  match entries with
  | [] => .ok []
  | e :: rest => do
    let rcd ← processBalanceEntry e
    let rs ← processBalanceEntries rest
    match rcd with
    | some r => return r :: rs
    | none => return rs

/-- Claim C4 (code bug): the defensive _decimal_from_value helper does map
an unparseable field to zero, but the _update_balances snapshot loop uses
the raw Decimal(str(...)) conversion, so one non-parseable available field
aborts processing of the whole payload instead of being treated as zero. -/
theorem c4_snapshot_aborts_on_unparseable :
    decimalFromValue (JVal.jstr "abc") = 0 ∧
    processBalanceEntries
      [[("asset", JVal.jstr "BTC"), ("available", JVal.jstr "1")],
       [("asset", JVal.jstr "ETH"), ("available", JVal.jstr "abc")]] =
      Except.error () :=
  ⟨by decide, by decide⟩

/-- A locally tracked order (the fields of InFlightOrder that the
identifier resolver and refresh logic read). -/
structure TrackedOrder where
  clientOrderId : String
  exchangeOrderId : Option String
  tradingPair : String
  isBuy : Bool
  amount : Rat
  price : Option Rat
  creationTimestamp : Rat

/-- BiconomyExchange._CLIENT_ID_FIELDS. -/
def clientIdFields : List String :=
  ["client_id", "clientId", "clientOrderId", "client_oid", "clientOid"]

/-- BiconomyExchange._EXCHANGE_ID_FIELDS. -/
def exchangeIdFields : List String :=
  ["order_id", "orderId", "id"]

/-- BiconomyExchange._AMOUNT_FIELDS. -/
def amountFields : List String :=
  ["amount", "number", "deal_stock", "size"]

/-- BiconomyExchange._PRICE_FIELDS. -/
def priceFields : List String :=
  ["price", "deal_price", "avg_price"]

/-- First listed field whose value is a nonempty string. -/
def firstStringField (fs : List (String × JVal)) : List String → Option String
  | [] => none
  | k :: rest =>
    match jGet fs k with
    | .jstr s => if s ≠ "" then some s else firstStringField fs rest
    | _ => firstStringField fs rest

/-- BiconomyExchange._extract_client_order_id. -/
def extractClientOrderId (fs : List (String × JVal)) : Option String :=
  firstStringField fs clientIdFields

/-- First listed field with a non-None value, rendered with str(). -/
def firstNonNullStr (fs : List (String × JVal)) : List String → Option String
  | [] => none
  | k :: rest =>
    match jGet fs k with
    | .jnull => firstNonNullStr fs rest
    | v => some (pyStr v)

/-- BiconomyExchange._extract_exchange_order_id (str() of these scalar
values never raises, so the except path is dead). -/
def extractExchangeOrderId (fs : List (String × JVal)) : Option String :=
  firstNonNullStr fs exchangeIdFields

/-- Python int(float): truncation toward zero. -/
def pyIntTrunc (q : Rat) : Int :=
  if q ≥ 0 then q.floor else q.ceil

/-- BiconomyExchange._coerce_entry_side: buy maps to 2 and sell to 1
(CONSTANTS.SIDE_BUY and SIDE_SELL), digit strings and numbers to their
integer value (bools being ints in Python), everything else to None. -/
def coerceEntrySide (v : JVal) : Option Int :=
  match v with
  | .jnull => none
  | .jstr s =>
    let lowered := strLower s
    if lowered = "buy" then some 2
    else if lowered = "sell" then some 1
    else if isDigits lowered.toList then some (digitsVal lowered.toList : Int)
    else none
  | .jbool b => some (if b then 1 else 0)
  | .jint n => some n
  | .jrat q => some (pyIntTrunc q)
  | _ => none

/-- BiconomyExchange._decimal_from_entry_fields: the first listed field
that is present with a non-None value, defensively coerced; zero when no
field qualifies. -/
def decimalFromEntryFields (fs : List (String × JVal)) : List String → Rat
  | [] => 0
  | k :: rest =>
    match lookupField fs k with
    | some .jnull => decimalFromEntryFields fs rest
    | some v => decimalFromValue v
    | none => decimalFromEntryFields fs rest

/-- BiconomyExchange._values_close: equality against zero, otherwise a
relative tolerance of 0.0001 with an absolute floor of 1e-8. -/
def valuesClose (lhs rhs : Rat) : Bool :=
  if rhs = 0 then decide (lhs = rhs)
  else
    decide (qAbs (qSub lhs rhs) ≤
      max (mkRat 1 100000000) (qMul (qAbs rhs) (mkRat 1 10000)))

/-- Heuristic tail of BiconomyExchange._entry_matches_tracked_order: the
amount signal, then the price signal, each able to veto; at least two
signals must agree. -/
def entryMatchesHeuristic (o : TrackedOrder) (fs : List (String × JVal))
    (m0 : Nat) : Bool :=
  let entryAmount := decimalFromEntryFields fs amountFields
  let amountStep : Option Nat :=
    if 0 < entryAmount ∧ 0 < o.amount then
      if valuesClose entryAmount o.amount then some (m0 + 1) else none
    else some m0
  match amountStep with
  | none => false
  | some m1 =>
    let entryPrice := decimalFromEntryFields fs priceFields
    let priceStep : Option Nat :=
      match o.price with
      | some p =>
        if 0 < p ∧ 0 < entryPrice then
          (if valuesClose entryPrice p then some (m1 + 1) else none)
        else some m1
      | none => some m1
    match priceStep with
    | none => false
    | some m2 => decide (2 ≤ m2)

/-- BiconomyExchange._entry_matches_tracked_order: immediate match on the
embedded client id, then on an already-held venue id, then the side veto
and the heuristic signals. -/
def entryMatchesTrackedOrder (o : TrackedOrder) (fs : List (String × JVal)) : Bool :=
  if extractClientOrderId fs = some o.clientOrderId then true
  else if extractExchangeOrderId fs ≠ none ∧ o.exchangeOrderId ≠ none ∧
      extractExchangeOrderId fs = o.exchangeOrderId then true
  else
    match coerceEntrySide (pyOrV (jGet fs "side") (jGet fs "type")) with
    | some s =>
      if s ≠ (if o.isBuy then (2 : Int) else 1) then false
      else entryMatchesHeuristic o fs 1
    | none => entryMatchesHeuristic o fs 0

/-- Claim C6: an entry whose embedded client id equals the tracked order's
client id matches immediately, whatever the side/amount/price signals say;
and an entry with no id match whose coerced side contradicts the tracked
side never matches. -/
theorem c6_client_id_priority_and_side_veto (o : TrackedOrder)
    (fs : List (String × JVal)) :
    (extractClientOrderId fs = some o.clientOrderId →
      entryMatchesTrackedOrder o fs = true) ∧
    (extractClientOrderId fs ≠ some o.clientOrderId →
      (o.exchangeOrderId = none ∨ extractExchangeOrderId fs ≠ o.exchangeOrderId) →
      ∀ s, coerceEntrySide (pyOrV (jGet fs "side") (jGet fs "type")) = some s →
        s ≠ (if o.isBuy then (2 : Int) else 1) →
        entryMatchesTrackedOrder o fs = false) := by
  constructor
  · intro h
    simp [entryMatchesTrackedOrder, h]
  · intro h1 h2 s hs hside
    have hno : ¬ (extractExchangeOrderId fs ≠ none ∧ o.exchangeOrderId ≠ none ∧
        extractExchangeOrderId fs = o.exchangeOrderId) := by
      rcases h2 with h2a | h2b
      · rintro ⟨-, hb, -⟩
        exact hb h2a
      · rintro ⟨-, -, hc⟩
        exact h2b hc
    simp [entryMatchesTrackedOrder, h1, hno, hs, hside]

/-- Tracked buy order used in the C6 witness. -/
def c6order : TrackedOrder :=
  { clientOrderId := "HBOT-1", exchangeOrderId := some "900",
    tradingPair := "BTC-USDT", isBuy := true, amount := 1,
    price := some 100, creationTimestamp := 0 }

/-- Entry whose client id matches c6order while every heuristic signal
disagrees. -/
def c6entryA : List (String × JVal) :=
  [("client_id", JVal.jstr "HBOT-1"), ("side", JVal.jint 1),
   ("amount", JVal.jstr "5"), ("price", JVal.jstr "5")]

/-- Entry with no id fields, a contradicting (sell) side, but agreeing
amount and price. -/
def c6entryB : List (String × JVal) :=
  [("side", JVal.jint 1), ("amount", JVal.jstr "1"), ("price", JVal.jstr "100")]

/-- Witness for claim C6 on concrete entries. -/
theorem c6_witness :
    entryMatchesTrackedOrder c6order c6entryA = true ∧
    entryMatchesTrackedOrder c6order c6entryB = false :=
  ⟨(c6_client_id_priority_and_side_veto c6order c6entryA).1 (by decide),
   (c6_client_id_priority_and_side_veto c6order c6entryB).2 (by decide)
     (Or.inr (by decide)) 1 (by decide) (by decide)⟩

/-- A proposed order-state transition record (OrderUpdate). -/
structure OrderUpdateRec where
  clientOrderId : Option String
  exchangeOrderId : Option String
  tradingPair : String
  newState : OrderState
  updateTimestamp : Rat

/-- Python float(value) on a scalar, None when it raises.  Bools are
numbers in Python. -/
def pyFloatOf (v : JVal) : Option Rat :=
  match v with
  | .jint n => some (n : Rat)
  | .jrat q => some q
  | .jbool b => some (if b then 1 else 0)
  | .jstr s => parseDec s
  | _ => none

/-- BiconomyExchange._coerce_timestamp: None or an unconvertible value
falls back to the current wall-clock time; millisecond timestamps (above
1e12) are scaled down to seconds. -/
def coerceTimestamp (v : JVal) (now : Rat) : Rat :=
  match v with
  | .jnull => now
  | w =>
    match pyFloatOf w with
    | none => now
    | some t => if t > 1000000000000 then qDiv t 1000 else t

/-- Modelled from the spec: InFlightOrder.update_exchange_order_id is not
under src; it records the located venue id on the tracked order. -/
def updateExchangeOrderId (o : TrackedOrder) (eid : String) : TrackedOrder :=
  { o with exchangeOrderId := some eid }

/-- Modelled from the spec: ExchangePyBase._update_order_after_failure is
not under src; per the spec it issues a terminal failure update
(state = Failed) for the order at the current time. -/
def failureUpdate (o : TrackedOrder) (now : Rat) : OrderUpdateRec :=
  { clientOrderId := some o.clientOrderId, exchangeOrderId := none,
    tradingPair := o.tradingPair, newState := .FAILED, updateTimestamp := now }

/-- BiconomyExchange._sync_tracked_order_with_remote_entry: forward a
terminal state read from the located entry, nothing otherwise. -/
def syncTrackedOrderUpdates (o : TrackedOrder) (fs : List (String × JVal))
    (now : Rat) : List OrderUpdateRec :=
  let st := orderStateFromStatus fs
  if st = .CANCELED ∨ st = .FILLED ∨ st = .FAILED then
    [{ clientOrderId := some o.clientOrderId,
       exchangeOrderId := o.exchangeOrderId,
       tradingPair := o.tradingPair,
       newState := st,
       updateTimestamp := coerceTimestamp
         (pyOrV (pyOrV (jGet fs "mtime") (jGet fs "update_time"))
           (jGet fs "ctime")) now }]
  else []

/-- Environment of one _refresh_exchange_order_id call: the symbol lookup
(None when it raises) and the outcome of scanning the pending and finished
listings (_find_order_entry_via_rest), plus the current time. -/
structure RefreshEnv where
  symbolFor : String → Option String
  foundEntry : Option (List (String × JVal))
  now : Rat

/-- BiconomyExchange._refresh_exchange_order_id: returns the (possibly
refreshed) venue id together with the state updates it forwarded to the
order tracker.  When the scans locate nothing, an order older than 30
seconds receives a terminal failure update and the call reports
unresolved; a younger order is left untouched for a later retry. -/
def refreshExchangeOrderId (o : TrackedOrder) (env : RefreshEnv) :
    Option String × List OrderUpdateRec :=
  match env.symbolFor o.tradingPair with
  | none => (none, [])
  | some _ =>
    match env.foundEntry with
    | some entry =>
      let o2 := match extractExchangeOrderId entry with
        | some eid => updateExchangeOrderId o eid
        | none => o
      (o2.exchangeOrderId, syncTrackedOrderUpdates o2 entry env.now)
    | none =>
      let age := max 0 (qSub env.now o.creationTimestamp)
      if age > 30 then (none, [failureUpdate o env.now])
      else (none, [])

/-- Claim C7: when the refresh scans both listings without locating the
order, it reports unresolved (no id); an order whose age exceeds 30
seconds receives exactly the terminal Failed update, a younger one
receives no update at all. -/
theorem c7_refresh_unresolved_policy (o : TrackedOrder) (env : RefreshEnv)
    (sym : String) (hsym : env.symbolFor o.tradingPair = some sym)
    (hfind : env.foundEntry = none) :
    (refreshExchangeOrderId o env).1 = none ∧
    (max 0 (qSub env.now o.creationTimestamp) > 30 →
      (refreshExchangeOrderId o env).2 = [failureUpdate o env.now]) ∧
    (¬ max 0 (qSub env.now o.creationTimestamp) > 30 →
      (refreshExchangeOrderId o env).2 = []) := by
  unfold refreshExchangeOrderId
  rw [hsym, hfind]
  by_cases hage : max 0 (qSub env.now o.creationTimestamp) > 30
  · simp [hage]
  · simp [hage]

/-- Tracked order used in the C7 witness. -/
def c7order : TrackedOrder :=
  { clientOrderId := "HBOT-7", exchangeOrderId := none,
    tradingPair := "BTC-USDT", isBuy := true, amount := 1,
    price := some 100, creationTimestamp := 0 }

/-- Refresh environment of the C7 witness: symbol resolves, neither
listing contains the order, 40 seconds have elapsed. -/
def c7env : RefreshEnv :=
  { symbolFor := fun _ => some "BTC_USDT", foundEntry := none, now := 40 }

/-- Witness for claim C7: at age 40 the refresh reports unresolved and
issues exactly the terminal failure update. -/
theorem c7_witness :
    (refreshExchangeOrderId c7order c7env).1 = none ∧
    (refreshExchangeOrderId c7order c7env).2 = [failureUpdate c7order 40] :=
  ⟨(c7_refresh_unresolved_policy c7order c7env "BTC_USDT" rfl rfl).1,
   (c7_refresh_unresolved_policy c7order c7env "BTC_USDT" rfl rfl).2.1 (by decide)⟩

/-- Health counters of one user-stream connection. -/
structure StreamHealth where
  messageId : Int
  lastServerPingTs : Rat
  lastPongSentTs : Rat

/-- An outbound websocket JSON message. -/
structure WsMessage where
  method : String
  params : List JVal
  msgId : JVal

/-- BiconomyAPIUserStreamDataSource._respond_to_ping: record the
probe-received time, build and send the acknowledgement, record the
ack-sent time.  The Python call message.get("id", self._next_message_id())
evaluates the default argument eagerly, so the message counter always
advances; the acknowledgement still carries the probe's own id whenever
the probe has one.  The two times are parameters because the code reads
the wall clock at each point. -/
def respondToPing (st : StreamHealth) (msg : List (String × JVal))
    (t1 t2 : Rat) : StreamHealth × WsMessage :=
  let nextId := st.messageId + 1
  let pid := match lookupField msg "id" with
    | some v => v
    | none => .jint nextId
  ({ messageId := nextId, lastServerPingTs := t1, lastPongSentTs := t2 },
   { method := "server.pong", params := [], msgId := pid })

/-- Claim C9: the acknowledgement of a venue probe carrying a correlation
id carries that same id, and the handler records both the probe-received
and the ack-sent timestamps before completing. -/
theorem c9_pong_id_and_timestamps (st : StreamHealth)
    (msg : List (String × JVal)) (t1 t2 : Rat) (c : JVal)
    (hid : lookupField msg "id" = some c) :
    (respondToPing st msg t1 t2).2.msgId = c ∧
    (respondToPing st msg t1 t2).2.method = "server.pong" ∧
    (respondToPing st msg t1 t2).1.lastServerPingTs = t1 ∧
    (respondToPing st msg t1 t2).1.lastPongSentTs = t2 := by
  simp [respondToPing, hid]

/-- Witness for claim C9 on a concrete probe message. -/
theorem c9_witness :
    (respondToPing ⟨5, 0, 0⟩
      [("method", JVal.jstr "server.ping"), ("id", JVal.jint 77)] 10 11).2.msgId =
      JVal.jint 77 ∧
    (respondToPing ⟨5, 0, 0⟩
      [("method", JVal.jstr "server.ping"), ("id", JVal.jint 77)] 10 11).1.lastServerPingTs = 10 ∧
    (respondToPing ⟨5, 0, 0⟩
      [("method", JVal.jstr "server.ping"), ("id", JVal.jint 77)] 10 11).1.lastPongSentTs = 11 :=
  have h := c9_pong_id_and_timestamps ⟨5, 0, 0⟩
    [("method", JVal.jstr "server.ping"), ("id", JVal.jint 77)] 10 11
    (JVal.jint 77) rfl
  ⟨h.1, h.2.2.1, h.2.2.2⟩

/-- The bidirectional exchange-symbol map, symbol to trading pair
(_exchange_trading_pair_map). -/
abbrev PairMap := List (String × String)

/-- Forward lookup (symbol to trading pair). -/
def bdGet (m : PairMap) (k : String) : Option String :=
  match m with
  | [] => none
  | (k2, v) :: rest => if k2 = k then some v else bdGet rest k

/-- Inverse lookup (trading pair to symbol), as the bidict .inverse view. -/
def bdInverseGet (m : PairMap) (v : String) : Option String :=
  match m with
  | [] => none
  | (k2, v2) :: rest => if v2 = v then some k2 else bdInverseGet rest v

/-- bidict item assignment: an existing key is overwritten in place, a
value already bound to a different key raises ValueDuplicationError. -/
def bdSet (m : PairMap) (k v : String) : Except Unit PairMap :=
  if m.any (fun kv => kv.2 == v && kv.1 != k) then .error ()
  else if m.any (fun kv => kv.1 == k) then
    .ok (m.map (fun kv => if kv.1 = k then (k, v) else kv))
  else .ok (m ++ [(k, v)])

/-- Split a character list at its last hyphen; None when there is none. -/
def rsplitCharList (cs : List Char) : Option (List Char × List Char) :=
  let r := breakOnChar (fun c => c = '-') cs.reverse
  match r.2 with
  | [] => none
  | _ :: rb => some (rb.reverse, r.1.reverse)

/-- Python trading_pair.rsplit("-", 1) restricted to two pieces: split at
the last hyphen, None when there is none (where the two-element unpacking
would raise). -/
def rsplitHyphen (s : String) : Option (String × String) :=
  match rsplitCharList s.toList with
  | none => none
  | some (b, q) => some (⟨b⟩, ⟨q⟩)

/-- Python symbol.split("_", 1) restricted to two pieces: split at the
first underscore, None when there is none. -/
def splitUnderscoreFirst (s : String) : Option (String × String) :=
  let r := breakOnChar (fun c => c = '_') s.toList
  match r.2 with
  | [] => none
  | _ :: rest => some (⟨r.1⟩, ⟨rest⟩)

/-- _combine_trading_pair: strip both parts, require both nonempty, join
with a hyphen; an empty part raises ValueError. -/
def combineTradingPair (b q : String) : Except Unit String :=
  let b2 : String := ⟨trimChars b.toList⟩
  let q2 : String := ⟨trimChars q.toList⟩
  if b2 = "" ∨ q2 = "" then .error ()
  else .ok (b2 ++ "-" ++ q2)

/-- BiconomyExchange.exchange_symbol_associated_to_pair: consult the
inverse view of the cache; on a miss, split at the last hyphen, join with
an underscore and record the binding. -/
def exchangeSymbolAssociatedToPair (m : PairMap) (pair : String) :
    Except Unit (String × PairMap) :=
  match bdInverseGet m pair with
  | some sym => .ok (sym, m)
  | none =>
    match rsplitHyphen pair with
    | none => .error ()
    | some (b, q) =>
      let sym := b ++ "_" ++ q
      match bdSet m sym pair with
      | .ok m2 => .ok (sym, m2)
      | .error e => .error e

/-- BiconomyExchange.trading_pair_associated_to_exchange_symbol: consult
the cache before any string splitting; on a miss, split at the first
underscore, combine with a hyphen and record the binding. -/
def tradingPairAssociatedToExchangeSymbol (m : PairMap) (sym : String) :
    Except Unit (String × PairMap) :=
  match bdGet m sym with
  | some pair => .ok (pair, m)
  | none =>
    match splitUnderscoreFirst sym with
    | none => .error ()
    | some (b, q) =>
      match combineTradingPair b q with
      | .ok pair =>
        match bdSet m sym pair with
        | .ok m2 => .ok (pair, m2)
        | .error e => .error e
      | .error e => .error e

theorem bdInverseGet_eq_none (m : PairMap) (v : String)
    (h : ∀ kv ∈ m, kv.2 ≠ v) : bdInverseGet m v = none := by
  induction m with
  | nil => rfl
  | cons kv rest ih =>
    obtain ⟨k2, v2⟩ := kv
    have hne : v2 ≠ v := h (k2, v2) (List.mem_cons_self _ _)
    simp only [bdInverseGet, if_neg hne]
    exact ih (fun kv2 hm => h kv2 (List.mem_cons_of_mem _ hm))

theorem breakOnChar_snd_ne_nil (p : Char → Bool) (cs : List Char)
    (h : ∃ c ∈ cs, p c = true) : (breakOnChar p cs).2 ≠ [] := by
  induction cs with
  | nil => simp at h
  | cons c rest ih =>
    by_cases hc : p c = true
    · simp [breakOnChar, hc]
    · rcases h with ⟨c2, hmem, hp⟩
      rcases List.mem_cons.mp hmem with heq | htail
      · subst heq
        exact absurd hp hc
      · simp only [breakOnChar, hc, Bool.false_eq_true, if_false]
        exact ih ⟨c2, htail, hp⟩

theorem rsplitCharList_isSome (cs : List Char) (h : '-' ∈ cs) :
    ∃ b q, rsplitCharList cs = some (b, q) := by
  have hne : (breakOnChar (fun c => c = '-') cs.reverse).2 ≠ [] := by
    refine breakOnChar_snd_ne_nil _ _ ⟨'-', ?_, by simp⟩
    simpa using h
  simp only [rsplitCharList]
  cases hb : (breakOnChar (fun c => c = '-') cs.reverse).2 with
  | nil => exact absurd hb hne
  | cons c rest => exact ⟨_, _, rfl⟩

theorem bdGet_append_fresh (m : PairMap) (k v : String)
    (h : ∀ kv ∈ m, kv.1 ≠ k) : bdGet (m ++ [(k, v)]) k = some v := by
  induction m with
  | nil => simp [bdGet]
  | cons kv rest ih =>
    obtain ⟨k2, v2⟩ := kv
    have hne : k2 ≠ k := h (k2, v2) (List.mem_cons_self _ _)
    simp only [List.cons_append, bdGet, if_neg hne]
    exact ih (fun kv2 hm => h kv2 (List.mem_cons_of_mem _ hm))

theorem bdGet_map_replace (m : PairMap) (k v : String)
    (h : ∃ kv ∈ m, kv.1 = k) :
    bdGet (m.map (fun kv => if kv.1 = k then (k, v) else kv)) k = some v := by
  induction m with
  | nil => simp at h
  | cons kv rest ih =>
    obtain ⟨k2, v2⟩ := kv
    by_cases hk : k2 = k
    · subst hk
      rw [List.map_cons]
      have hhead : (if (k2, v2).1 = k2 then (k2, v) else (k2, v2)) = (k2, v) := by simp
      rw [hhead]
      simp [bdGet]
    · have h2 : ∃ kv ∈ rest, kv.1 = k := by
        rcases h with ⟨kv2, hmem, hkey⟩
        rcases List.mem_cons.mp hmem with heq | htail
        · rw [heq] at hkey
          exact absurd hkey hk
        · exact ⟨kv2, htail, hkey⟩
      rw [List.map_cons]
      have hhead : (if (k2, v2).1 = k then (k, v) else (k2, v2)) = (k2, v2) := by
        simp [hk]
      rw [hhead]
      simp only [bdGet, if_neg hk]
      exact ih h2

/-- Claim C10: for a trading pair containing a hyphen and not yet bound in
the symbol map, deriving its exchange symbol and mapping that symbol back
yields the original pair, because the first call records the binding that
the second call consults before any splitting. -/
theorem c10_symbol_roundtrip (m : PairMap) (pair : String)
    (hhyph : '-' ∈ pair.toList)
    (hfresh : ∀ kv ∈ m, kv.2 ≠ pair) :
    ∃ sym m2, exchangeSymbolAssociatedToPair m pair = .ok (sym, m2) ∧
      tradingPairAssociatedToExchangeSymbol m2 sym = .ok (pair, m2) := by
  have hinv : bdInverseGet m pair = none := bdInverseGet_eq_none m pair hfresh
  obtain ⟨bl, ql, hbql⟩ := rsplitCharList_isSome pair.toList hhyph
  have hbq : rsplitHyphen pair = some (⟨bl⟩, ⟨ql⟩) := by
    have hd : rsplitCharList pair.data = some (bl, ql) := hbql
    simp [rsplitHyphen, hd]
  set b : String := ⟨bl⟩
  set q : String := ⟨ql⟩
  have hnodup : ¬ m.any (fun kv => kv.2 == pair && kv.1 != (b ++ "_" ++ q)) = true := by
    simp only [List.any_eq_true, not_exists]
    intro kv
    rintro ⟨hmem, hcond⟩
    have hv : kv.2 = pair := by
      have hleft := Bool.and_elim_left hcond
      simpa using hleft
    exact hfresh kv hmem hv
  have hset : ∃ m2, bdSet m (b ++ "_" ++ q) pair = .ok m2 ∧
      bdGet m2 (b ++ "_" ++ q) = some pair := by
    unfold bdSet
    rw [if_neg hnodup]
    by_cases hkey : m.any (fun kv => kv.1 == (b ++ "_" ++ q)) = true
    · rw [if_pos hkey]
      refine ⟨_, rfl, ?_⟩
      apply bdGet_map_replace
      obtain ⟨kv, hmem, hat⟩ := List.any_eq_true.mp hkey
      exact ⟨kv, hmem, by simpa using hat⟩
    · rw [if_neg hkey]
      refine ⟨_, rfl, ?_⟩
      apply bdGet_append_fresh
      intro kv hmem hcontra
      apply hkey
      exact List.any_eq_true.mpr ⟨kv, hmem, by simp [hcontra]⟩
  obtain ⟨m2, hset2, hget⟩ := hset
  refine ⟨b ++ "_" ++ q, m2, ?_, ?_⟩
  · simp [exchangeSymbolAssociatedToPair, hinv, hbq, hset2]
  · simp [tradingPairAssociatedToExchangeSymbol, hget]

/-- Witness for claim C10: a fresh pair on an empty map round-trips. -/
theorem c10_witness :
    ∃ sym m2, exchangeSymbolAssociatedToPair [] "BTC-USDT" = .ok (sym, m2) ∧
      tradingPairAssociatedToExchangeSymbol m2 sym = .ok ("BTC-USDT", m2) :=
  c10_symbol_roundtrip [] "BTC-USDT" (by decide) (by simp)

/-- Association-list lookup (Python dict access). -/
def assocGet {α : Type} (m : List (String × α)) (k : String) : Option α :=
  match m with
  | [] => none
  | (k2, v) :: rest => if k2 = k then some v else assocGet rest k

/-- Association-list store (Python dict assignment): overwrite in place or
append. -/
def assocSet {α : Type} (m : List (String × α)) (k : String) (v : α) :
    List (String × α) :=
  if m.any (fun kv => kv.1 == k) then
    m.map (fun kv => if kv.1 = k then (k, v) else kv)
  else m ++ [(k, v)]

/-- Python dict.pop for every key in the given list. -/
def assocDropKeys {α : Type} (m : List (String × α)) (ks : List String) :
    List (String × α) :=
  m.filter (fun kv => !(ks.contains kv.1))

/-- The balance store (available and total per asset) together with the
once-per-session gate of the degradation warning
(_empty_balance_logged). -/
structure BalanceState where
  availB : List (String × Rat)
  totalB : List (String × Rat)
  emptyLogged : Bool

/-- _split_trading_pair: split at the last hyphen; no hyphen or an empty
part raises ValueError. -/
def splitTradingPair (s : String) : Option (String × String) :=
  match rsplitHyphen s with
  | none => none
  | some (b, q) => if b = "" ∨ q = "" then none else some (b, q)

/-- Membership-preserving set insertion (Python set.add, order chosen by
first appearance). -/
def insertUnique (l : List String) (x : String) : List String :=
  if l.contains x then l else l ++ [x]

/-- Lexicographic code-point comparison of character lists (the builtin
String order does not evaluate under the kernel). -/
def charListLE : List Char → List Char → Bool
  | [], _ => true
  | _ :: _, [] => false
  | c1 :: r1, c2 :: r2 =>
    if c1 = c2 then charListLE r1 r2 else decide (c1 < c2)

/-- Python string comparison: lexicographic by code point. -/
def strLE (a b : String) : Bool :=
  charListLE a.toList b.toList

/-- Insertion into a sorted string list. -/
def insSortedStr (x : String) : List String → List String
  | [] => [x]
  | y :: ys => if strLE x y then x :: y :: ys else y :: insSortedStr x ys

/-- Python sorted(...) on strings. -/
def sortStrs (l : List String) : List String :=
  l.foldr insSortedStr []

/-- The sorted set of base and quote assets of the configured trading
pairs, as collected by _build_balance_fallback_entries (pairs that fail to
split are skipped). -/
def fallbackAssets (pairs : List String) : List String :=
  sortStrs (pairs.foldl (fun acc p =>
    match splitTradingPair p with
    | some (b, q) => insertUnique (insertUnique acc b) q
    | none => acc) [])

/-- One zero-balance fallback entry. -/
def mkFallbackEntry (a : String) : List (String × JVal) :=
  [("asset", JVal.jstr a), ("available", JVal.jstr "0")]

/-- BiconomyExchange._build_balance_fallback_entries: zero-balance entries
for the configured assets, logging the degradation warning only when the
once-per-session gate is still open.  Returns the entries, the new gate
value and whether the warning was logged on this call. -/
def buildBalanceFallbackEntries (pairs : List String) (logged : Bool) :
    List (List (String × JVal)) × Bool × Bool :=
  let assets := fallbackAssets pairs
  if assets.isEmpty then ([], logged, false)
  else (assets.map mkFallbackEntry, true, !logged)

/-- The main _update_balances snapshot loop folded over the entries,
threading the two balance maps and the set of assets seen. -/
def applySnapshotEntries (entries : List (List (String × JVal)))
    (avail totalm : List (String × Rat)) (remote : List String) :
    Except Unit (List (String × Rat) × List (String × Rat) × List String) :=
  match entries with
  | [] => .ok (avail, totalm, remote)
  | e :: rest => do
    let rcd ← processBalanceEntry e
    match rcd with
    | none => applySnapshotEntries rest avail totalm remote
    | some (a, av, tot) =>
      applySnapshotEntries rest (assocSet avail a av) (assocSet totalm a tot)
        (insertUnique remote a)

/-- The second fallback path of _update_balances (entries parsed but no
assets recognized): write each fallback asset with its available amount as
both available and total. -/
def applySecondFallback (fents : List (List (String × JVal)))
    (avail totalm : List (String × Rat)) :
    Except Unit (List (String × Rat) × List (String × Rat) × List String) :=
  match fents with
  | [] => .ok (avail, totalm, [])
  | e :: rest =>
    match lookupField e "asset" with
    | some (.jstr a) => do
      let av ← pyDecimalOfValue ((lookupField e "available").getD (.jstr "0"))
      let r ← applySecondFallback rest (assocSet avail a av) (assocSet totalm a av)
      .ok (r.1, r.2.1, insertUnique r.2.2 a)
    | _ => .error ()

/-- Closing step of _update_balances: drop the previously tracked assets
the snapshot no longer reports, store the warning gate. -/
def updateBalancesFinish (st : BalanceState)
    (avail totalm : List (String × Rat)) (remote : List String)
    (flag didLog : Bool) : BalanceState × Bool :=
  let localAssets := st.totalB.map (fun kv => kv.1)
  let toDrop := localAssets.filter (fun a => !(remote.contains a))
  ({ availB := assocDropKeys avail toDrop,
     totalB := assocDropKeys totalm toDrop,
     emptyLogged := flag }, didLog)

/-- After the main loop of _update_balances: when no asset was recognized,
run the fallback builder again and apply the second fallback path,
otherwise finish directly. -/
def updateBalancesAfterLoop (st : BalanceState) (pairs : List String)
    (feFlag feLog : Bool)
    (r : List (String × Rat) × List (String × Rat) × List String) :
    Except Unit (BalanceState × Bool) :=
  if r.2.2.isEmpty then
    let fb := buildBalanceFallbackEntries pairs feFlag
    (applySecondFallback fb.1 r.1 r.2.1).map (fun r2 =>
      updateBalancesFinish st r2.1 r2.2.1 r2.2.2 fb.2.1 (feLog || fb.2.2))
  else
    .ok (updateBalancesFinish st r.1 r.2.1 r.2.2 feFlag feLog)

/-- BiconomyExchange._update_balances, parametrized by the entries the
normalizer collected from the raw payload: run the fallback builder when
the normalizer yields nothing (resetting the warning gate otherwise),
apply the snapshot loop, fall back again when no asset was recognized,
then drop the previously tracked assets the snapshot no longer reports.
Returns the new state and whether the degradation warning was logged. -/
def updateBalancesModel (st : BalanceState) (pairs : List String)
    (collected : List (List (String × JVal))) :
    Except Unit (BalanceState × Bool) :=
  let fe :=
    if collected.isEmpty then buildBalanceFallbackEntries pairs st.emptyLogged
    else (collected, false, false)
  (applySnapshotEntries fe.1 st.availB st.totalB []).bind
    (updateBalancesAfterLoop st pairs fe.2.1 fe.2.2)

/-- A parseable balance entry used in the C8 counterexample. -/
def c8goodEntry : List (String × JVal) :=
  [("asset", JVal.jstr "BTC"), ("available", JVal.jstr "1")]

/-- Three consecutive snapshots: degraded, healthy, degraded again;
counting how often the degradation warning is logged. -/
def c8driver : Except Unit Nat := do
  let r1 ← updateBalancesModel ⟨[], [], false⟩ ["BTC-USDT"] []
  let r2 ← updateBalancesModel r1.1 ["BTC-USDT"] [c8goodEntry]
  let r3 ← updateBalancesModel r2.1 ["BTC-USDT"] []
  Except.ok ((if r1.2 then 1 else 0) + (if r2.2 then 1 else 0) +
    (if r3.2 then 1 else 0))

/-- Claim C8 (counterexample): the warning gate resets whenever a snapshot
yields entries, so a degrade-recover-degrade sequence logs the degradation
warning twice within one session, not once. -/
theorem c8_counterexample : c8driver = .ok 2 := by decide

theorem strUpper_ne_empty (a : String) (h : a ≠ "") : strUpper a ≠ "" := by
  intro hc
  apply h
  have hd : List.map Char.toUpper a.data = [] := by
    have h2 := congrArg String.data hc
    simpa [strUpper, String.toList] using h2
  have hnil : a.data = [] := List.map_eq_nil_iff.mp hd
  cases a with
  | mk l =>
    simp only at hnil
    subst hnil
    rfl

theorem assocGet_map_replace {α : Type} (m : List (String × α)) (k : String)
    (v : α) (h : ∃ kv ∈ m, kv.1 = k) :
    assocGet (m.map (fun kv => if kv.1 = k then (k, v) else kv)) k = some v := by
  induction m with
  | nil => simp at h
  | cons kv rest ih =>
    obtain ⟨k2, v2⟩ := kv
    by_cases hk : k2 = k
    · subst hk
      rw [List.map_cons]
      have hhead : (if (k2, v2).1 = k2 then (k2, v) else (k2, v2)) = (k2, v) := by simp
      rw [hhead]
      simp [assocGet]
    · have h2 : ∃ kv ∈ rest, kv.1 = k := by
        rcases h with ⟨kv2, hmem, hkey⟩
        rcases List.mem_cons.mp hmem with heq | htail
        · rw [heq] at hkey
          exact absurd hkey hk
        · exact ⟨kv2, htail, hkey⟩
      rw [List.map_cons]
      have hhead : (if (k2, v2).1 = k then (k, v) else (k2, v2)) = (k2, v2) := by
        simp [hk]
      rw [hhead]
      simp only [assocGet, if_neg hk]
      exact ih h2

theorem assocGet_append_fresh {α : Type} (m : List (String × α)) (k : String)
    (v : α) (h : ∀ kv ∈ m, kv.1 ≠ k) : assocGet (m ++ [(k, v)]) k = some v := by
  induction m with
  | nil => simp [assocGet]
  | cons kv rest ih =>
    obtain ⟨k2, v2⟩ := kv
    have hne : k2 ≠ k := h (k2, v2) (List.mem_cons_self _ _)
    simp only [List.cons_append, assocGet, if_neg hne]
    exact ih (fun kv2 hm => h kv2 (List.mem_cons_of_mem _ hm))

theorem assocGet_set_self {α : Type} (m : List (String × α)) (k : String)
    (v : α) : assocGet (assocSet m k v) k = some v := by
  unfold assocSet
  by_cases hk : m.any (fun kv => kv.1 == k) = true
  · rw [if_pos hk]
    apply assocGet_map_replace
    obtain ⟨kv, hmem, hat⟩ := List.any_eq_true.mp hk
    exact ⟨kv, hmem, by simpa using hat⟩
  · rw [if_neg hk]
    apply assocGet_append_fresh
    intro kv hmem hcontra
    apply hk
    exact List.any_eq_true.mpr ⟨kv, hmem, by simp [hcontra]⟩

theorem assocGet_map_replace_other {α : Type} (m : List (String × α))
    (k : String) (v : α) (x : String) (hx : x ≠ k) :
    assocGet (m.map (fun kv => if kv.1 = k then (k, v) else kv)) x =
      assocGet m x := by
  induction m with
  | nil => rfl
  | cons kv rest ih =>
    obtain ⟨k2, v2⟩ := kv
    by_cases hk : k2 = k
    · subst hk
      rw [List.map_cons]
      have hhead : (if (k2, v2).1 = k2 then (k2, v) else (k2, v2)) = (k2, v) := by simp
      rw [hhead]
      have hne : k2 ≠ x := fun hc => hx hc.symm
      simp only [assocGet, if_neg hne]
      exact ih
  
    · rw [List.map_cons]
      have hhead : (if (k2, v2).1 = k then (k, v) else (k2, v2)) = (k2, v2) := by
        simp [hk]
      rw [hhead]
      simp only [assocGet]
      by_cases h2 : k2 = x
      · simp [h2]
      · simp only [if_neg h2]
        exact ih

theorem assocGet_append_other {α : Type} (m : List (String × α)) (k : String)
    (v : α) (x : String) (hx : x ≠ k) :
    assocGet (m ++ [(k, v)]) x = assocGet m x := by
  induction m with
  | nil =>
    have hne : k ≠ x := fun hc => hx hc.symm
    simp [assocGet, hne]
  | cons kv rest ih =>
    obtain ⟨k2, v2⟩ := kv
    by_cases h2 : k2 = x
    · simp [assocGet, h2]
    · simp only [List.cons_append, assocGet, if_neg h2]
      exact ih

theorem assocGet_set_other {α : Type} (m : List (String × α)) (k : String)
    (v : α) (x : String) (hx : x ≠ k) :
    assocGet (assocSet m k v) x = assocGet m x := by
  unfold assocSet
  by_cases hk : m.any (fun kv => kv.1 == k) = true
  · rw [if_pos hk]
    exact assocGet_map_replace_other m k v x hx
  · rw [if_neg hk]
    exact assocGet_append_other m k v x hx

theorem assocGet_eq_none_of_not_mem_keys {α : Type} (m : List (String × α))
    (x : String) (h : x ∉ m.map (fun kv => kv.1)) : assocGet m x = none := by
  induction m with
  | nil => rfl
  | cons kv rest ih =>
    obtain ⟨k2, v2⟩ := kv
    simp only [List.map_cons, List.mem_cons, not_or] at h
    have hne : k2 ≠ x := fun hc => h.1 hc.symm
    simp only [assocGet, if_neg hne]
    exact ih h.2

theorem assocGet_dropKeys {α : Type} (m : List (String × α)) (ks : List String)
    (x : String) :
    assocGet (assocDropKeys m ks) x =
      if ks.contains x then none else assocGet m x := by
  induction m with
  | nil => simp [assocDropKeys, assocGet]
  | cons kv rest ih =>
    obtain ⟨k2, v2⟩ := kv
    unfold assocDropKeys at ih ⊢
    rw [List.filter_cons]
    by_cases hk : ks.contains k2 = true
    · simp only [hk, Bool.not_true, Bool.false_eq_true, if_false]
      rw [ih]
      by_cases hmem : x ∈ ks
      · have hcx : ks.contains x = true := by simpa using hmem
        simp [hcx, hmem]
      · have hcx : ks.contains x = false := by simpa using hmem
        have hne : k2 ≠ x := by
          intro hc
          rw [← hc] at hcx
          rw [hk] at hcx
          exact absurd hcx (by simp)
        simp [hcx, hmem, assocGet, if_neg hne]
    · have hk2 : ks.contains k2 = false := by
        simpa using hk
      simp only [hk2, Bool.not_false, if_true]
      by_cases hx : k2 = x
      · subst hx
        have hmem : k2 ∉ ks := by simpa using hk2
        simp [assocGet, hk2, hmem]
      · simp only [assocGet, if_neg hx]
        rw [ih]

theorem mem_insertUnique (l : List String) (y x : String) :
    x ∈ insertUnique l y ↔ x ∈ l ∨ x = y := by
  unfold insertUnique
  by_cases hy : l.contains y = true
  · rw [if_pos hy]
    constructor
    · exact Or.inl
    · rintro (h | h)
      · exact h
      · subst h
        exact List.mem_of_elem_eq_true hy
  · rw [if_neg hy]
    simp

theorem mem_insSortedStr (y x : String) (l : List String) :
    x ∈ insSortedStr y l ↔ x = y ∨ x ∈ l := by
  induction l with
  | nil => simp [insSortedStr]
  | cons z rest ih =>
    unfold insSortedStr
    by_cases hle : strLE y z = true
    · simp [hle]
    · simp only [hle, Bool.false_eq_true, if_false, List.mem_cons, ih]
      tauto

theorem mem_sortStrs (l : List String) (x : String) :
    x ∈ sortStrs l ↔ x ∈ l := by
  unfold sortStrs
  induction l with
  | nil => simp
  | cons y rest ih =>
    simp only [List.foldr_cons, mem_insSortedStr, List.mem_cons, ih]

theorem processBalanceEntry_fallback (a : String) (h : a ≠ "") :
    processBalanceEntry (mkFallbackEntry a) = .ok (some (strUpper a, 0, 0)) := by
  have e1 : balanceAssetChain (mkFallbackEntry a) = JVal.jstr a := by
    unfold balanceAssetChain mkFallbackEntry
    have hga : jGet [("asset", JVal.jstr a), ("available", JVal.jstr "0")]
        "asset" = JVal.jstr a := rfl
    have hgc : jGet [("asset", JVal.jstr a), ("available", JVal.jstr "0")]
        "currency" = JVal.jnull := rfl
    have hgo : jGet [("asset", JVal.jstr a), ("available", JVal.jstr "0")]
        "coin" = JVal.jnull := rfl
    have hgs : jGet [("asset", JVal.jstr a), ("available", JVal.jstr "0")]
        "symbol" = JVal.jnull := rfl
    rw [hga, hgc, hgo, hgs]
    simp [pyOrV, pyTruthy, h]
  have e2 : availableChain (mkFallbackEntry a) = JVal.jstr "0" := rfl
  have e3 : freezeChain (mkFallbackEntry a) = JVal.jstr "0" := rfl
  have e4 : otherFreezeChain (mkFallbackEntry a) = JVal.jstr "0" := rfl
  have hup : ¬ strUpper a = "" := strUpper_ne_empty a h
  have hz : pyDecimalOfValue (JVal.jstr "0") = .ok 0 := by decide
  have hq : qAdd (qAdd (0 : Rat) 0) 0 = 0 := by decide
  unfold processBalanceEntry
  rw [e1, e2, e3, e4, hz]
  show (if strUpper a = "" then Except.ok none
      else Except.ok (some (strUpper a, (0 : Rat), qAdd (qAdd (0 : Rat) 0) 0))) =
    Except.ok (some (strUpper a, 0, 0))
  rw [if_neg hup, hq]

theorem applySnapshot_fallback (assets : List String)
    (hA : ∀ a ∈ assets, a ≠ "") (av tot : List (String × Rat))
    (rem : List String) :
    applySnapshotEntries (assets.map mkFallbackEntry) av tot rem =
      .ok (assets.foldl (fun m a => assocSet m (strUpper a) (0 : Rat)) av,
           assets.foldl (fun m a => assocSet m (strUpper a) (0 : Rat)) tot,
           assets.foldl (fun r a => insertUnique r (strUpper a)) rem) := by
  induction assets generalizing av tot rem with
  | nil => rfl
  | cons a rest ih =>
    have ha : a ≠ "" := hA a (List.mem_cons_self _ _)
    rw [List.map_cons]
    rw [show applySnapshotEntries (mkFallbackEntry a :: rest.map mkFallbackEntry)
        av tot rem =
        (processBalanceEntry (mkFallbackEntry a)).bind (fun rcd =>
          match rcd with
          | none => applySnapshotEntries (rest.map mkFallbackEntry) av tot rem
          | some (x, av2, tot2) =>
            applySnapshotEntries (rest.map mkFallbackEntry)
              (assocSet av x av2) (assocSet tot x tot2)
              (insertUnique rem x)) from rfl]
    rw [processBalanceEntry_fallback a ha]
    simp only [Except.bind]
    rw [ih (fun x hx => hA x (List.mem_cons_of_mem _ hx))]
    simp only [List.foldl_cons]

theorem mem_foldl_insertUnique (assets : List String) (rem : List String)
    (x : String) :
    x ∈ assets.foldl (fun r a => insertUnique r (strUpper a)) rem ↔
      x ∈ rem ∨ x ∈ assets.map strUpper := by
  induction assets generalizing rem with
  | nil => simp
  | cons a rest ih =>
    rw [List.foldl_cons, ih]
    rw [mem_insertUnique]
    simp only [List.map_cons, List.mem_cons]
    tauto

theorem assocGet_foldl_setZero (assets : List String)
    (av : List (String × Rat)) (x : String) :
    assocGet (assets.foldl (fun m a => assocSet m (strUpper a) (0 : Rat)) av) x =
      if x ∈ assets.map strUpper then some 0 else assocGet av x := by
  induction assets generalizing av with
  | nil => simp
  | cons a rest ih =>
    rw [List.foldl_cons, ih]
    by_cases hrest : x ∈ rest.map strUpper
    · simp [hrest]
    · by_cases hx : x = strUpper a
      · subst hx
        simp [hrest, assocGet_set_self]
      · have h1 : assocGet (assocSet av (strUpper a) 0) x = assocGet av x :=
          assocGet_set_other av (strUpper a) 0 x hx
        simp [hrest, hx, h1]

theorem mem_collectAssets (pairs : List String) (acc0 : List String)
    (x : String) :
    x ∈ pairs.foldl (fun acc p =>
        match splitTradingPair p with
        | some (b, q) => insertUnique (insertUnique acc b) q
        | none => acc) acc0 ↔
      x ∈ acc0 ∨ ∃ p ∈ pairs, ∃ b q, splitTradingPair p = some (b, q) ∧
        (x = b ∨ x = q) := by
  induction pairs generalizing acc0 with
  | nil => simp
  | cons p rest ih =>
    rw [List.foldl_cons]
    cases hp : splitTradingPair p with
    | none =>
      rw [ih]
      constructor
      · rintro (h | ⟨p2, hp2, b, q, hs, hbq⟩)
        · exact Or.inl h
        · exact Or.inr ⟨p2, List.mem_cons_of_mem _ hp2, b, q, hs, hbq⟩
      · rintro (h | ⟨p2, hp2, b, q, hs, hbq⟩)
        · exact Or.inl h
        · rcases List.mem_cons.mp hp2 with heq | htail
          · subst heq
            simp [hp] at hs
          · exact Or.inr ⟨p2, htail, b, q, hs, hbq⟩
    | some bq =>
      obtain ⟨b0, q0⟩ := bq
      rw [ih, mem_insertUnique, mem_insertUnique]
      constructor
      · rintro (((h | h) | h) | ⟨p2, hp2, b, q, hs, hbq⟩)
        · exact Or.inl h
        · exact Or.inr ⟨p, List.mem_cons_self _ _, b0, q0, hp, Or.inl h⟩
        · exact Or.inr ⟨p, List.mem_cons_self _ _, b0, q0, hp, Or.inr h⟩
        · exact Or.inr ⟨p2, List.mem_cons_of_mem _ hp2, b, q, hs, hbq⟩
      · rintro (h | ⟨p2, hp2, b, q, hs, hbq⟩)
        · exact Or.inl (Or.inl (Or.inl h))
        · rcases List.mem_cons.mp hp2 with heq | htail
          · subst heq
            rw [hp] at hs
            injection hs with h2
            cases h2
            rcases hbq with hx | hx
            · exact Or.inl (Or.inl (Or.inr hx))
            · exact Or.inl (Or.inr hx)
          · exact Or.inr ⟨p2, htail, b, q, hs, hbq⟩

theorem mem_fallbackAssets (pairs : List String) (x : String) :
    x ∈ fallbackAssets pairs ↔
      ∃ p ∈ pairs, ∃ b q, splitTradingPair p = some (b, q) ∧
        (x = b ∨ x = q) := by
  unfold fallbackAssets
  rw [mem_sortStrs, mem_collectAssets]
  simp

theorem splitTradingPair_parts_ne (p b q : String)
    (h : splitTradingPair p = some (b, q)) : b ≠ "" ∧ q ≠ "" := by
  unfold splitTradingPair at h
  cases hr : rsplitHyphen p with
  | none =>
    rw [hr] at h
    cases h
  | some bq =>
    rw [hr] at h
    obtain ⟨b0, q0⟩ := bq
    by_cases hbe : b0 = "" ∨ q0 = ""
    · simp [hbe] at h
    · simp only [if_neg hbe] at h
      injection h with h2
      cases h2
      push_neg at hbe
      exact hbe

/-- Claim C8 (amended): when a snapshot yields zero normalized entries, the
reconciler sets available and total to zero for exactly the (uppercased)
base and quote assets of the configured trading pairs and removes every
other asset; the degradation warning is logged exactly when the
once-per-session gate is still open, and the gate is closed afterwards
(the gate reopens whenever a later snapshot yields entries, so the
warning fires at most once per consecutive degraded stretch, not once per
session). -/
theorem c8_fallback_zero_balances_amended (st : BalanceState)
    (pairs : List String)
    (hsync : ∀ a, (assocGet st.availB a).isSome ↔ (assocGet st.totalB a).isSome)
    (hvalid : ∀ p ∈ pairs, (splitTradingPair p).isSome)
    (hne : pairs ≠ []) :
    ∃ st2 didLog, updateBalancesModel st pairs [] = .ok (st2, didLog) ∧
      didLog = !st.emptyLogged ∧
      st2.emptyLogged = true ∧
      (∀ x, x ∈ (fallbackAssets pairs).map strUpper →
        assocGet st2.availB x = some 0 ∧ assocGet st2.totalB x = some 0) ∧
      (∀ x, x ∉ (fallbackAssets pairs).map strUpper →
        assocGet st2.availB x = none ∧ assocGet st2.totalB x = none) ∧
      (∀ x, x ∈ fallbackAssets pairs ↔
        ∃ p ∈ pairs, ∃ b q, splitTradingPair p = some (b, q) ∧
          (x = b ∨ x = q)) := by
  have hA : ∀ a ∈ fallbackAssets pairs, a ≠ "" := by
    intro a ha
    obtain ⟨p, hp, b, q, hs, hbq⟩ := (mem_fallbackAssets pairs a).mp ha
    obtain ⟨hb, hq⟩ := splitTradingPair_parts_ne p b q hs
    rcases hbq with h | h
    · exact h ▸ hb
    · exact h ▸ hq
  have hAne : fallbackAssets pairs ≠ [] := by
    obtain ⟨p, hp⟩ := List.exists_mem_of_ne_nil pairs hne
    have hs := hvalid p hp
    cases hsp : splitTradingPair p with
    | none =>
      rw [hsp] at hs
      cases hs
    | some bq =>
      have hmem : bq.1 ∈ fallbackAssets pairs :=
        (mem_fallbackAssets pairs bq.1).mpr
          ⟨p, hp, bq.1, bq.2, by rw [hsp], Or.inl rfl⟩
      intro hcontra
      rw [hcontra] at hmem
      cases hmem
  have hie : (fallbackAssets pairs).isEmpty = false := by
    cases hfa : fallbackAssets pairs with
    | nil => exact absurd hfa hAne
    | cons _ _ => rfl
  have hfe : buildBalanceFallbackEntries pairs st.emptyLogged =
      ((fallbackAssets pairs).map mkFallbackEntry, true, !st.emptyLogged) := by
    simp [buildBalanceFallbackEntries, hie]
  have hrun := applySnapshot_fallback (fallbackAssets pairs) hA
    st.availB st.totalB []
  have hremmem : ∀ x,
      x ∈ (fallbackAssets pairs).foldl
        (fun r a => insertUnique r (strUpper a)) [] ↔
      x ∈ (fallbackAssets pairs).map strUpper := by
    intro x
    rw [mem_foldl_insertUnique]
    simp
  have hremne : ((fallbackAssets pairs).foldl
      (fun r a => insertUnique r (strUpper a)) []).isEmpty = false := by
    obtain ⟨a0, ha0⟩ := List.exists_mem_of_ne_nil (fallbackAssets pairs) hAne
    have hm : strUpper a0 ∈ (fallbackAssets pairs).foldl
        (fun r a => insertUnique r (strUpper a)) [] :=
      (hremmem (strUpper a0)).mpr (List.mem_map_of_mem _ ha0)
    cases hr2 : (fallbackAssets pairs).foldl
        (fun r a => insertUnique r (strUpper a)) [] with
    | nil =>
      rw [hr2] at hm
      cases hm
    | cons _ _ => rfl
  have h1 : updateBalancesModel st pairs [] =
      (applySnapshotEntries ((fallbackAssets pairs).map mkFallbackEntry)
        st.availB st.totalB []).bind
        (updateBalancesAfterLoop st pairs true (!st.emptyLogged)) := by
    show (applySnapshotEntries
        (buildBalanceFallbackEntries pairs st.emptyLogged).1
        st.availB st.totalB []).bind
        (updateBalancesAfterLoop st pairs
          (buildBalanceFallbackEntries pairs st.emptyLogged).2.1
          (buildBalanceFallbackEntries pairs st.emptyLogged).2.2) = _
    rw [hfe]
  have h2 : updateBalancesModel st pairs [] =
      updateBalancesAfterLoop st pairs true (!st.emptyLogged)
        ((fallbackAssets pairs).foldl
          (fun m a => assocSet m (strUpper a) (0 : Rat)) st.availB,
         (fallbackAssets pairs).foldl
          (fun m a => assocSet m (strUpper a) (0 : Rat)) st.totalB,
         (fallbackAssets pairs).foldl
          (fun r a => insertUnique r (strUpper a)) []) := by
    rw [h1, hrun]
    rfl
  have h3 : updateBalancesModel st pairs [] =
      .ok (updateBalancesFinish st
        ((fallbackAssets pairs).foldl
          (fun m a => assocSet m (strUpper a) (0 : Rat)) st.availB)
        ((fallbackAssets pairs).foldl
          (fun m a => assocSet m (strUpper a) (0 : Rat)) st.totalB)
        ((fallbackAssets pairs).foldl
          (fun r a => insertUnique r (strUpper a)) [])
        true (!st.emptyLogged)) := by
    rw [h2]
    unfold updateBalancesAfterLoop
    rw [show (((fallbackAssets pairs).foldl
        (fun m a => assocSet m (strUpper a) (0 : Rat)) st.availB,
        (fallbackAssets pairs).foldl
          (fun m a => assocSet m (strUpper a) (0 : Rat)) st.totalB,
        (fallbackAssets pairs).foldl
          (fun r a => insertUnique r (strUpper a)) []) :
        List (String × Rat) × List (String × Rat) × List String).2.2 =
        (fallbackAssets pairs).foldl
          (fun r a => insertUnique r (strUpper a)) [] from rfl]
    rw [hremne]
    rfl
  refine ⟨_, _, h3.trans rfl, rfl, rfl, ?_, ?_, fun x => mem_fallbackAssets pairs x⟩
  · intro x hx
    have hxrem : x ∈ (fallbackAssets pairs).foldl
        (fun r a => insertUnique r (strUpper a)) [] := (hremmem x).mpr hx
    have hnd : x ∉ (st.totalB.map (fun kv => kv.1)).filter
        (fun a => !(((fallbackAssets pairs).foldl
          (fun r a => insertUnique r (strUpper a)) []).contains a)) := by
      intro hc
      have hp2 := (List.mem_filter.mp hc).2
      exact absurd hxrem (by simpa using hp2)
    have hxd : ((st.totalB.map (fun kv => kv.1)).filter
        (fun a => !(((fallbackAssets pairs).foldl
          (fun r a => insertUnique r (strUpper a)) []).contains a))).contains x
        = false := by
      simpa using hnd
    constructor
    · show assocGet (assocDropKeys _ _) x = some 0
      rw [assocGet_dropKeys, hxd]
      simp only [Bool.false_eq_true, if_false]
      rw [assocGet_foldl_setZero]
      simp [hx]
    · show assocGet (assocDropKeys _ _) x = some 0
      rw [assocGet_dropKeys, hxd]
      simp only [Bool.false_eq_true, if_false]
      rw [assocGet_foldl_setZero]
      simp [hx]
  · intro x hx
    have hxa : assocGet ((fallbackAssets pairs).foldl
        (fun m a => assocSet m (strUpper a) (0 : Rat)) st.availB) x =
        assocGet st.availB x := by
      rw [assocGet_foldl_setZero]
      simp [hx]
    have hxt : assocGet ((fallbackAssets pairs).foldl
        (fun m a => assocSet m (strUpper a) (0 : Rat)) st.totalB) x =
        assocGet st.totalB x := by
      rw [assocGet_foldl_setZero]
      simp [hx]
    by_cases hdrop : ((st.totalB.map (fun kv => kv.1)).filter
        (fun a => !(((fallbackAssets pairs).foldl
          (fun r a => insertUnique r (strUpper a)) []).contains a))).contains x
        = true
    · constructor
      · show assocGet (assocDropKeys _ _) x = none
        rw [assocGet_dropKeys, hdrop]
        rfl
      · show assocGet (assocDropKeys _ _) x = none
        rw [assocGet_dropKeys, hdrop]
        rfl
    · have hdropf : ((st.totalB.map (fun kv => kv.1)).filter
          (fun a => !(((fallbackAssets pairs).foldl
            (fun r a => insertUnique r (strUpper a)) []).contains a))).contains x
          = false := by
        simpa using hdrop
      have hxrem : x ∉ (fallbackAssets pairs).foldl
          (fun r a => insertUnique r (strUpper a)) [] := by
        intro hc
        exact hx ((hremmem x).mp hc)
      have hxrc : ((fallbackAssets pairs).foldl
          (fun r a => insertUnique r (strUpper a)) []).contains x = false := by
        simpa using hxrem
      have hxlocal : x ∉ st.totalB.map (fun kv => kv.1) := by
        intro hc
        have : x ∈ (st.totalB.map (fun kv => kv.1)).filter
            (fun a => !(((fallbackAssets pairs).foldl
              (fun r a => insertUnique r (strUpper a)) []).contains a)) := by
          rw [List.mem_filter]
          exact ⟨hc, by simpa using hxrem⟩
        have hcx : ((st.totalB.map (fun kv => kv.1)).filter
            (fun a => !(((fallbackAssets pairs).foldl
              (fun r a => insertUnique r (strUpper a)) []).contains a))).contains x
            = true := by
          simpa using this
        rw [hcx] at hdropf
        cases hdropf
      have htn : assocGet st.totalB x = none :=
        assocGet_eq_none_of_not_mem_keys st.totalB x hxlocal
      have han : assocGet st.availB x = none := by
        cases hav : assocGet st.availB x with
        | none => rfl
        | some v =>
          have h1 := (hsync x).mp (by rw [hav]; rfl)
          rw [htn] at h1
          cases h1
      constructor
      · show assocGet (assocDropKeys _ _) x = none
        rw [assocGet_dropKeys, hdropf]
        simp only [Bool.false_eq_true, if_false]
        rw [hxa, han]
      · show assocGet (assocDropKeys _ _) x = none
        rw [assocGet_dropKeys, hdropf]
        simp only [Bool.false_eq_true, if_false]
        rw [hxt, htn]

/-- Witness for claim C8: an empty balance store with one configured pair,
run through the amended theorem. -/
theorem c8_witness :
    ∃ st2 didLog,
      updateBalancesModel ⟨[], [], false⟩ ["BTC-USDT"] [] = .ok (st2, didLog) ∧
      didLog = !(false : Bool) ∧
      st2.emptyLogged = true ∧
      (∀ x, x ∈ (fallbackAssets ["BTC-USDT"]).map strUpper →
        assocGet st2.availB x = some 0 ∧ assocGet st2.totalB x = some 0) ∧
      (∀ x, x ∉ (fallbackAssets ["BTC-USDT"]).map strUpper →
        assocGet st2.availB x = none ∧ assocGet st2.totalB x = none) ∧
      (∀ x, x ∈ fallbackAssets ["BTC-USDT"] ↔
        ∃ p ∈ ["BTC-USDT"], ∃ b q, splitTradingPair p = some (b, q) ∧
          (x = b ∨ x = q)) :=
  c8_fallback_zero_balances_amended ⟨[], [], false⟩ ["BTC-USDT"]
    (fun _ => Iff.rfl) (by decide) (by decide)

/-- An in-flight order as cancel_all reads it. -/
structure IFOrder where
  clientOrderId : String
  exchangeOrderId : Option String
  tradingPair : String
  isDone : Bool
deriving DecidableEq

/-- Modelled from the spec: behavior of the collaborators that cancel_all
awaits and that live outside src — the REST refresh of a missing venue id
(None models an exception, some None an unresolved refresh), the symbol
lookup, the per-chunk bulk-cancel response (None models a request
failure), the outcome of ExchangePyBase._execute_cancel per order, and the
abort point at which the overall timeout or an exception interrupts the
run.  The timeout can only fire at an await point, so the successes
recorded by then form a prefix of the full success sequence; abortAfter
selects that prefix (none for a run that completes). -/
structure CancelEnv where
  refresh : String → Option (Option String)
  symbolFor : String → Option String
  chunkResp : Nat → Option (List JVal)
  indivSuccess : String → Bool
  abortAfter : Option Nat

/-- The venue id used for an order in the batch payload: the held exchange
order id, else whatever the refresh produced. -/
def resolveCancelId (env : CancelEnv) (o : IFOrder) : Option String :=
  match o.exchangeOrderId with
  | some e => some e
  | none =>
    match env.refresh o.clientOrderId with
    | some r => r
    | none => none

/-- BiconomyExchange._build_batch_cancel_candidates: orders with a venue id
and a derivable symbol become batch candidates carrying their requested
venue id; the rest fall back to individual cancellation. -/
def buildBatchCancelCandidates (env : CancelEnv) (orders : List IFOrder) :
    List (IFOrder × String) × List IFOrder :=
  orders.foldl (fun acc o =>
    match resolveCancelId env o with
    | none => (acc.1, acc.2 ++ [o])
    | some eid =>
      match env.symbolFor o.tradingPair with
      | none => (acc.1, acc.2 ++ [o])
      | some _ => (acc.1 ++ [(o, eid)], acc.2)) ([], [])

/-- Acknowledged venue id of one batch-cancel response entry:
str(entry.get("order_id") or ""), skipped when empty (so a falsy order_id
is never acknowledged); entries that are not dicts are skipped. -/
def ackIdOf (e : JVal) : Option String :=
  match e with
  | .jdict fs =>
    let s := pyStr (pyOrV (jGet fs "order_id") (.jstr ""))
    if s = "" then none else some s
  | _ => none

/-- The result flag of a response entry. -/
def entryResult (e : JVal) : JVal :=
  match e with
  | .jdict fs => jGet fs "result"
  | _ => .jnull

/-- BiconomyExchange._is_truthy: bool as itself; a string is truthy when
its stripped lowercase form is true, 1 or success; a number is truthy when
nonzero; everything else is falsy. -/
def isTruthy (v : JVal) : Bool :=
  match v with
  | .jbool b => b
  | .jstr s =>
    let t := strLower ⟨trimChars s.toList⟩
    t == "true" || t == "1" || t == "success"
  | .jint n => n != 0
  | .jrat q => q != 0
  | _ => false

/-- The order_lookup dict of one chunk: requested venue id to order,
insertion order with in-place replacement on duplicate ids. -/
def buildLookup (chunk : List (IFOrder × String)) : List (String × IFOrder) :=
  chunk.foldl (fun m p => assocSet m p.2 p.1) []

/-- Accumulator of the per-entry loop of _execute_batch_cancel. -/
structure ChunkAcc where
  succs : List IFOrder
  fails : List IFOrder
  acked : List String
deriving DecidableEq

/-- One response entry of the _execute_batch_cancel loop: skip entries
with no recognized venue id, record the acknowledgement, and route the
matching order by the truthiness of its result flag. -/
def chunkStep (lookup : List (String × IFOrder)) (acc : ChunkAcc) (e : JVal) :
    ChunkAcc :=
  match ackIdOf e with
  | none => acc
  | some rid =>
    let acked2 := acc.acked ++ [rid]
    match assocGet lookup rid with
    | none => { acc with acked := acked2 }
    | some o =>
      if isTruthy (entryResult e) then
        { acc with succs := acc.succs ++ [o], acked := acked2 }
      else
        { acc with fails := acc.fails ++ [o], acked := acked2 }

/-- One chunk of _execute_batch_cancel: a failed request or an empty
response routes every looked-up order to the failure list; otherwise the
entries are processed and the unacknowledged members are appended to the
failures. -/
def processChunk (chunk : List (IFOrder × String)) (resp : Option (List JVal)) :
    List IFOrder × List IFOrder :=
  let lookup := buildLookup chunk
  match resp with
  | none => ([], lookup.map (fun kv => kv.2))
  | some entries =>
    if entries.isEmpty then ([], lookup.map (fun kv => kv.2))
    else
      let acc := entries.foldl (chunkStep lookup) ⟨[], [], []⟩
      (acc.succs,
       acc.fails ++
         (lookup.filter (fun kv => !(acc.acked.contains kv.1))).map
           (fun kv => kv.2))

/-- BULK_CANCEL_MAX_SIZE. -/
def bulkCancelMaxSize : Nat := 10

/-- Fuel-driven core of the chunking loop (structural recursion so that
the kernel can evaluate it; the fuel is the list length, which always
suffices). -/
def chunkListFuel : Nat → List (IFOrder × String) →
    List (List (IFOrder × String))
  | _, [] => []
  | 0, l => [l]
  | fuel + 1, x :: xs =>
    ((x :: xs).take bulkCancelMaxSize) ::
      chunkListFuel fuel ((x :: xs).drop bulkCancelMaxSize)

/-- BiconomyExchange._chunk_list with the bulk-cancel chunk size. -/
def chunkList (l : List (IFOrder × String)) :
    List (List (IFOrder × String)) :=
  chunkListFuel l.length l

/-- The chunk loop of _execute_batch_cancel, one response per chunk
index. -/
def runChunks (env : CancelEnv) :
    List (List (IFOrder × String)) → Nat → List IFOrder × List IFOrder
  | [], _ => ([], [])
  | c :: rest, i =>
    let r := processChunk c (env.chunkResp i)
    let r2 := runChunks env rest (i + 1)
    (r.1 ++ r2.1, r.2 ++ r2.2)

/-- BiconomyExchange._execute_batch_cancel. -/
def executeBatchCancel (env : CancelEnv) (cands : List (IFOrder × String)) :
    List IFOrder × List IFOrder :=
  runChunks env (chunkList cands) 0

/-- BiconomyExchange.cancel_all: filter the not-yet-done orders, build the
batch candidates, run the chunked batch cancel, run the individual
fallbacks, and report one success per recorded success followed by one
failure for every order id still pending.  All collaborator behavior is
drawn from the environment, and every failure mode (refresh exception,
request failure, timeout abort) still produces a result list — the
never-raises half of the claim. -/
def cancelAll (orders : List IFOrder) (env : CancelEnv) : List (String × Bool) :=
  let incomplete := orders.filter (fun o => !o.isDone)
  if incomplete.isEmpty then []
  else
    let bc := buildBatchCancelCandidates env incomplete
    let br := executeBatchCancel env bc.1
    let fallback := bc.2 ++ br.2
    let fallbackSucc :=
      (fallback.filter (fun o => env.indivSuccess o.clientOrderId)).map
        (fun o => o.clientOrderId)
    let fullSucc := br.1.map (fun o => o.clientOrderId) ++ fallbackSucc
    let succ := match env.abortAfter with
      | none => fullSucc
      | some k => fullSucc.take k
    succ.map (fun c => (c, true)) ++
      ((incomplete.map (fun o => o.clientOrderId)).filter
        (fun c => !(succ.contains c))).map (fun c => (c, false))

/-- Claim C1 exactly as stated: one CancellationResult per not-yet-done
order, no duplicates, no omissions, nothing else. -/
def cancelAllExactlyOne (orders : List IFOrder) (env : CancelEnv) : Prop :=
  ∀ cid, ((cancelAll orders env).map (fun r => r.1)).count cid =
    if cid ∈ (orders.filter (fun o => !o.isDone)).map (fun o => o.clientOrderId)
    then 1 else 0

/-- The single incomplete order of the C1 counterexample. -/
def c1order : IFOrder :=
  { clientOrderId := "HBOT-C1", exchangeOrderId := some "7",
    tradingPair := "BTC-USDT", isDone := false }

/-- Environment whose batch response acknowledges the same order id twice
with a truthy flag. -/
def c1env : CancelEnv :=
  { refresh := fun _ => none,
    symbolFor := fun _ => some "BTC_USDT",
    chunkResp := fun _ => some
      [JVal.jdict [("order_id", JVal.jstr "7"), ("result", JVal.jbool true)],
       JVal.jdict [("order_id", JVal.jstr "7"), ("result", JVal.jbool true)]],
    indivSuccess := fun _ => false,
    abortAfter := none }

/-- Claim C1 (counterexample): a chunk response repeating a truthy entry
for the same venue id makes cancel_all return two success results for one
order, so the exactly-one property fails as stated. -/
theorem c1_counterexample :
    cancelAll [c1order] c1env = [("HBOT-C1", true), ("HBOT-C1", true)] ∧
    ¬ cancelAllExactlyOne [c1order] c1env := by
  refine ⟨by decide, fun hclaim => absurd (hclaim "HBOT-C1") (by decide)⟩

/-- Pairwise-distinct keys of an association list. -/
def keysNodup {α : Type} (m : List (String × α)) : Prop :=
  (m.map (fun kv => kv.1)).Nodup

theorem assocGet_of_mem_nodup {α : Type} (m : List (String × α)) (k : String)
    (v : α) (hn : keysNodup m) (hmem : (k, v) ∈ m) : assocGet m k = some v := by
  induction m with
  | nil => cases hmem
  | cons kv rest ih =>
    obtain ⟨k2, v2⟩ := kv
    have hn2 : keysNodup rest := (List.nodup_cons.mp hn).2
    rcases List.mem_cons.mp hmem with heq | htail
    · injection heq with h1 h2
      subst h1
      subst h2
      simp [assocGet]
    · by_cases hk : k2 = k
      · exfalso
        subst hk
        have hkeys : k2 ∈ rest.map (fun kv => kv.1) := by
          exact List.mem_map_of_mem _ htail
        exact (List.nodup_cons.mp hn).1 hkeys
      · simp only [assocGet, if_neg hk]
        exact ih hn2 htail

theorem mem_of_assocGet {α : Type} (m : List (String × α)) (k : String)
    (v : α) (h : assocGet m k = some v) : (k, v) ∈ m := by
  induction m with
  | nil => cases h
  | cons kv rest ih =>
    obtain ⟨k2, v2⟩ := kv
    by_cases hk : k2 = k
    · subst hk
      simp only [assocGet, if_pos rfl] at h
      injection h with h2
      subst h2
      exact List.mem_cons_self _ _
    · simp only [assocGet, if_neg hk] at h
      exact List.mem_cons_of_mem _ (ih h)

theorem assocGet_none_imp {α : Type} (m : List (String × α)) (k : String)
    (h : assocGet m k = none) : ∀ kv ∈ m, kv.1 ≠ k := by
  induction m with
  | nil => intro kv hm; cases hm
  | cons kv rest ih =>
    obtain ⟨k2, v2⟩ := kv
    by_cases hk : k2 = k
    · subst hk
      simp [assocGet] at h
    · simp only [assocGet, if_neg hk] at h
      intro kv2 hm
      rcases List.mem_cons.mp hm with heq | htail
      · subst heq
        exact hk
      · exact ih h kv2 htail

theorem contains_append_single (l : List String) (y x : String) (hx : x ≠ y) :
    (l ++ [y]).contains x = l.contains x := by
  by_cases h : x ∈ l
  · have h1 : l.contains x = true := by simpa using h
    have h2 : (l ++ [y]).contains x = true := by
      have hm : x ∈ l ++ [y] := List.mem_append_left _ h
      simpa using hm
    rw [h1, h2]
  · have h1 : l.contains x = false := by simpa using h
    have h2 : (l ++ [y]).contains x = false := by
      have hnm : x ∉ l ++ [y] := by simp [h, hx]
      simpa using hnm
    rw [h1, h2]

theorem buildLookup_aux_eq (chunk : List (IFOrder × String))
    (acc : List (String × IFOrder))
    (hfresh : ∀ p ∈ chunk, p.2 ∉ acc.map (fun kv => kv.1))
    (hk : (chunk.map (fun p => p.2)).Nodup) :
    chunk.foldl (fun m p => assocSet m p.2 p.1) acc =
      acc ++ chunk.map (fun p => (p.2, p.1)) := by
  induction chunk generalizing acc with
  | nil => simp
  | cons p rest ih =>
    obtain ⟨o, rid⟩ := p
    rw [List.foldl_cons]
    have hset : assocSet acc rid o = acc ++ [(rid, o)] := by
      unfold assocSet
      have hno : ¬ acc.any (fun kv => kv.1 == rid) = true := by
        intro hc
        obtain ⟨kv, hm, he⟩ := List.any_eq_true.mp hc
        have hkey : kv.1 = rid := by simpa using he
        exact hfresh (o, rid) (List.mem_cons_self _ _)
          (hkey ▸ List.mem_map_of_mem _ hm)
      rw [if_neg hno]
    rw [hset]
    have hk2 : (rest.map (fun p => p.2)).Nodup := (List.nodup_cons.mp hk).2
    have hfresh2 : ∀ p ∈ rest, p.2 ∉ (acc ++ [(rid, o)]).map (fun kv => kv.1) := by
      intro p2 hp2
      simp only [List.map_append, List.mem_append]
      rintro (hin | hin)
      · exact hfresh p2 (List.mem_cons_of_mem _ hp2) hin
      · simp only [List.map_cons, List.map_nil, List.mem_singleton] at hin
        apply (List.nodup_cons.mp hk).1
        rw [← hin]
        exact List.mem_map.mpr ⟨p2, hp2, rfl⟩
    rw [ih (acc ++ [(rid, o)]) hfresh2 hk2]
    simp

theorem buildLookup_eq (chunk : List (IFOrder × String))
    (hk : (chunk.map (fun p => p.2)).Nodup) :
    buildLookup chunk = chunk.map (fun p => (p.2, p.1)) := by
  unfold buildLookup
  rw [buildLookup_aux_eq chunk [] (by simp) hk]
  simp

theorem chunkFold_acked (lookup : List (String × IFOrder)) (es : List JVal)
    (acc : ChunkAcc) :
    (es.foldl (chunkStep lookup) acc).acked =
      acc.acked ++ es.filterMap ackIdOf := by
  induction es generalizing acc with
  | nil => simp
  | cons e rest ih =>
    rw [List.foldl_cons, ih]
    cases ha : ackIdOf e with
    | none => simp [chunkStep, ha, List.filterMap_cons]
    | some rid =>
      cases hg : assocGet lookup rid with
      | none => simp [chunkStep, ha, hg, List.filterMap_cons]
      | some o =>
        by_cases ht : isTruthy (entryResult e) = true
        · simp [chunkStep, ha, hg, ht, List.filterMap_cons]
        · simp [chunkStep, ha, hg, ht, List.filterMap_cons]

theorem chunkFold_succs_mem (lookup : List (String × IFOrder)) (es : List JVal)
    (acc : ChunkAcc) (o : IFOrder) :
    (o ∈ (es.foldl (chunkStep lookup) acc).succs ↔
      o ∈ acc.succs ∨ ∃ e ∈ es, ∃ rid, ackIdOf e = some rid ∧
        assocGet lookup rid = some o ∧ isTruthy (entryResult e) = true) := by
  induction es generalizing acc with
  | nil => simp
  | cons e rest ih =>
    rw [List.foldl_cons, ih]
    cases ha : ackIdOf e with
    | none =>
      simp only [chunkStep, ha]
      constructor
      · rintro (h | h)
        · exact Or.inl h
        · obtain ⟨e2, he2, rid, h1, h2, h3⟩ := h
          exact Or.inr ⟨e2, List.mem_cons_of_mem _ he2, rid, h1, h2, h3⟩
      · rintro (h | ⟨e2, he2, rid, h1, h2, h3⟩)
        · exact Or.inl h
        · rcases List.mem_cons.mp he2 with heq | htail
          · subst heq
            rw [ha] at h1
            cases h1
          · exact Or.inr ⟨e2, htail, rid, h1, h2, h3⟩
    | some rid0 =>
      cases hg : assocGet lookup rid0 with
      | none =>
        simp only [chunkStep, ha, hg]
        constructor
        · rintro (h | ⟨e2, he2, rid, h1, h2, h3⟩)
          · exact Or.inl h
          · exact Or.inr ⟨e2, List.mem_cons_of_mem _ he2, rid, h1, h2, h3⟩
        · rintro (h | ⟨e2, he2, rid, h1, h2, h3⟩)
          · exact Or.inl h
          · rcases List.mem_cons.mp he2 with heq | htail
            · subst heq
              rw [ha] at h1
              injection h1 with h1b
              subst h1b
              rw [hg] at h2
              cases h2
            · exact Or.inr ⟨e2, htail, rid, h1, h2, h3⟩
      | some o2 =>
        by_cases ht : isTruthy (entryResult e) = true
        · simp only [chunkStep, ha, hg, ht, if_true]
          constructor
          · rintro (h | ⟨e2, he2, rid, h1, h2, h3⟩)
            · rcases List.mem_append.mp h with hin | hin
              · exact Or.inl hin
              · rw [List.mem_singleton] at hin
                subst hin
                exact Or.inr ⟨e, List.mem_cons_self _ _, rid0, ha, hg, ht⟩
            · exact Or.inr ⟨e2, List.mem_cons_of_mem _ he2, rid, h1, h2, h3⟩
          · rintro (h | ⟨e2, he2, rid, h1, h2, h3⟩)
            · exact Or.inl (List.mem_append_left _ h)
            · rcases List.mem_cons.mp he2 with heq | htail
              · subst heq
                rw [ha] at h1
                injection h1 with h1b
                subst h1b
                rw [hg] at h2
                injection h2 with h2b
                exact Or.inl (List.mem_append_right _ (by simp [h2b]))
              · exact Or.inr ⟨e2, htail, rid, h1, h2, h3⟩
        · simp only [chunkStep, ha, hg, ht, if_false]
          constructor
          · rintro (h | ⟨e2, he2, rid, h1, h2, h3⟩)
            · exact Or.inl h
            · exact Or.inr ⟨e2, List.mem_cons_of_mem _ he2, rid, h1, h2, h3⟩
          · rintro (h | ⟨e2, he2, rid, h1, h2, h3⟩)
            · exact Or.inl h
            · rcases List.mem_cons.mp he2 with heq | htail
              · subst heq
                rw [ha] at h1
                injection h1 with h1b
                subst h1b
                exact absurd h3 ht
              · exact Or.inr ⟨e2, htail, rid, h1, h2, h3⟩

theorem chunkFold_fails_mem (lookup : List (String × IFOrder)) (es : List JVal)
    (acc : ChunkAcc) (o : IFOrder) :
    (o ∈ (es.foldl (chunkStep lookup) acc).fails ↔
      o ∈ acc.fails ∨ ∃ e ∈ es, ∃ rid, ackIdOf e = some rid ∧
        assocGet lookup rid = some o ∧ isTruthy (entryResult e) = false) := by
  induction es generalizing acc with
  | nil => simp
  | cons e rest ih =>
    rw [List.foldl_cons, ih]
    cases ha : ackIdOf e with
    | none =>
      simp only [chunkStep, ha]
      constructor
      · rintro (h | ⟨e2, he2, rid, h1, h2, h3⟩)
        · exact Or.inl h
        · exact Or.inr ⟨e2, List.mem_cons_of_mem _ he2, rid, h1, h2, h3⟩
      · rintro (h | ⟨e2, he2, rid, h1, h2, h3⟩)
        · exact Or.inl h
        · rcases List.mem_cons.mp he2 with heq | htail
          · subst heq
            rw [ha] at h1
            cases h1
          · exact Or.inr ⟨e2, htail, rid, h1, h2, h3⟩
    | some rid0 =>
      cases hg : assocGet lookup rid0 with
      | none =>
        simp only [chunkStep, ha, hg]
        constructor
        · rintro (h | ⟨e2, he2, rid, h1, h2, h3⟩)
          · exact Or.inl h
          · exact Or.inr ⟨e2, List.mem_cons_of_mem _ he2, rid, h1, h2, h3⟩
        · rintro (h | ⟨e2, he2, rid, h1, h2, h3⟩)
          · exact Or.inl h
          · rcases List.mem_cons.mp he2 with heq | htail
            · subst heq
              rw [ha] at h1
              injection h1 with h1b
              subst h1b
              rw [hg] at h2
              cases h2
            · exact Or.inr ⟨e2, htail, rid, h1, h2, h3⟩
      | some o2 =>
        by_cases ht : isTruthy (entryResult e) = true
        · simp only [chunkStep, ha, hg, ht, if_true]
          constructor
          · rintro (h | ⟨e2, he2, rid, h1, h2, h3⟩)
            · exact Or.inl h
            · exact Or.inr ⟨e2, List.mem_cons_of_mem _ he2, rid, h1, h2, h3⟩
          · rintro (h | ⟨e2, he2, rid, h1, h2, h3⟩)
            · exact Or.inl h
            · rcases List.mem_cons.mp he2 with heq | htail
              · subst heq
                rw [ha] at h1
                injection h1 with h1b
                subst h1b
                rw [h3] at ht
                cases ht
              · exact Or.inr ⟨e2, htail, rid, h1, h2, h3⟩
        · simp only [chunkStep, ha, hg, ht, if_false]
          have htf : isTruthy (entryResult e) = false := by
            simpa using ht
          constructor
          · rintro (h | ⟨e2, he2, rid, h1, h2, h3⟩)
            · rcases List.mem_append.mp h with hin | hin
              · exact Or.inl hin
              · rw [List.mem_singleton] at hin
                subst hin
                exact Or.inr ⟨e, List.mem_cons_self _ _, rid0, ha, hg, htf⟩
            · exact Or.inr ⟨e2, List.mem_cons_of_mem _ he2, rid, h1, h2, h3⟩
          · rintro (h | ⟨e2, he2, rid, h1, h2, h3⟩)
            · exact Or.inl (List.mem_append_left _ h)
            · rcases List.mem_cons.mp he2 with heq | htail
              · subst heq
                rw [ha] at h1
                injection h1 with h1b
                subst h1b
                rw [hg] at h2
                injection h2 with h2b
                exact Or.inl (List.mem_append_right _ (by simp [h2b]))
              · exact Or.inr ⟨e2, htail, rid, h1, h2, h3⟩

theorem snd_unique_of_fst_nodup (chunk : List (IFOrder × String))
    (ho : (chunk.map (fun p => p.1)).Nodup) (o : IFOrder) (r1 r2 : String)
    (h1 : (o, r1) ∈ chunk) (h2 : (o, r2) ∈ chunk) : r1 = r2 := by
  induction chunk with
  | nil => cases h1
  | cons p rest ih =>
    have hhd : p.1 ∉ rest.map (fun p => p.1) := (List.nodup_cons.mp ho).1
    have htl := (List.nodup_cons.mp ho).2
    rcases List.mem_cons.mp h1 with he1 | ht1 <;>
      rcases List.mem_cons.mp h2 with he2 | ht2
    · rw [← he1] at he2
      injection he2 with _ hr
      exact hr.symm
    · exfalso
      apply hhd
      rw [← he1]
      exact List.mem_map.mpr ⟨(o, r2), ht2, rfl⟩
    · exfalso
      apply hhd
      rw [← he2]
      exact List.mem_map.mpr ⟨(o, r1), ht1, rfl⟩
    · exact ih htl ht1 ht2

/-- Claim C5: in batch cancellation, for every chunk whose requested venue
ids and members are distinct, a member is counted a success iff the chunk
response has an entry acknowledging its requested venue id with a truthy
result flag (via _is_truthy); a member acknowledged with a falsy flag, or
not acknowledged at all, lands on the individual-fallback failure list. -/
theorem c5_chunk_success_iff_truthy_ack (chunk : List (IFOrder × String))
    (entries : List JVal)
    (hk : (chunk.map (fun p => p.2)).Nodup)
    (ho : (chunk.map (fun p => p.1)).Nodup)
    (o : IFOrder) (rid : String) (hmem : (o, rid) ∈ chunk) :
    ((o ∈ (processChunk chunk (some entries)).1 ↔
      ∃ e ∈ entries, ackIdOf e = some rid ∧ isTruthy (entryResult e) = true) ∧
    (((∃ e ∈ entries, ackIdOf e = some rid ∧ isTruthy (entryResult e) = false) ∨
      (∀ e ∈ entries, ackIdOf e ≠ some rid)) →
      o ∈ (processChunk chunk (some entries)).2)) := by
  have hbl : buildLookup chunk = chunk.map (fun p => (p.2, p.1)) :=
    buildLookup_eq chunk hk
  have hkn : keysNodup (buildLookup chunk) := by
    rw [hbl]
    show ((chunk.map (fun p => (p.2, p.1))).map (fun kv => kv.1)).Nodup
    rw [List.map_map]
    simpa [Function.comp] using hk
  have hlmem : (rid, o) ∈ buildLookup chunk := by
    rw [hbl]
    exact List.mem_map.mpr ⟨(o, rid), hmem, rfl⟩
  have hget : assocGet (buildLookup chunk) rid = some o :=
    assocGet_of_mem_nodup _ _ _ hkn hlmem
  have hridEq : ∀ rid2, assocGet (buildLookup chunk) rid2 = some o →
      rid2 = rid := by
    intro rid2 hg2
    have hm2 : (rid2, o) ∈ buildLookup chunk := mem_of_assocGet _ _ _ hg2
    rw [hbl] at hm2
    obtain ⟨p, hp, hpe⟩ := List.mem_map.mp hm2
    injection hpe with hpe1 hpe2
    have hpchunk : (o, rid2) ∈ chunk := by
      rw [← hpe2, ← hpe1]
      exact hp
    exact snd_unique_of_fst_nodup chunk ho o rid2 rid hpchunk hmem
  by_cases hemp : entries.isEmpty = true
  · have hes : entries = [] := by
      cases entries with
      | nil => rfl
      | cons a l => simp at hemp
    subst hes
    have hpc : processChunk chunk (some []) =
        ([], (buildLookup chunk).map (fun kv => kv.2)) := rfl
    rw [hpc]
    refine ⟨by simp, ?_⟩
    intro _
    exact List.mem_map.mpr ⟨(rid, o), hlmem, rfl⟩
  · have hempf : entries.isEmpty = false := by
      simpa using hemp
    have hpc : processChunk chunk (some entries) =
        ((entries.foldl (chunkStep (buildLookup chunk)) ⟨[], [], []⟩).succs,
         (entries.foldl (chunkStep (buildLookup chunk)) ⟨[], [], []⟩).fails ++
           ((buildLookup chunk).filter (fun kv =>
               !((entries.foldl (chunkStep (buildLookup chunk))
                   ⟨[], [], []⟩).acked.contains kv.1))).map
             (fun kv => kv.2)) := by
      simp [processChunk, hempf]
    rw [hpc]
    have hacked : (entries.foldl (chunkStep (buildLookup chunk))
        ⟨[], [], []⟩).acked = entries.filterMap ackIdOf := by
      rw [chunkFold_acked]
      simp
    constructor
    · rw [chunkFold_succs_mem]
      constructor
      · rintro (habs | ⟨e, he, rid2, hh1, hh2, hh3⟩)
        · exact absurd habs (List.not_mem_nil o)
        · have heq := hridEq rid2 hh2
          subst heq
          exact ⟨e, he, hh1, hh3⟩
      · rintro ⟨e, he, hh1, hh3⟩
        exact Or.inr ⟨e, he, rid, hh1, hget, hh3⟩
    · rintro (⟨e, he, hh1, hh3⟩ | hnone)
      · apply List.mem_append_left
        rw [chunkFold_fails_mem]
        exact Or.inr ⟨e, he, rid, hh1, hget, hh3⟩
      · apply List.mem_append_right
        have hnr : rid ∉ entries.filterMap ackIdOf := by
          intro hc
          obtain ⟨e, he, hae⟩ := List.mem_filterMap.mp hc
          exact hnone e he hae
        have hkeep : (rid, o) ∈ (buildLookup chunk).filter (fun kv =>
            !((entries.foldl (chunkStep (buildLookup chunk))
                ⟨[], [], []⟩).acked.contains kv.1)) := by
          refine List.mem_filter.mpr ⟨hlmem, ?_⟩
          rw [hacked]
          simpa using hnr
        exact List.mem_map.mpr ⟨(rid, o), hkeep, rfl⟩

/-- The chunk member of the C5 witness. -/
def c5order : IFOrder :=
  { clientOrderId := "HBOT-C5", exchangeOrderId := some "9",
    tradingPair := "BTC-USDT", isDone := false }

/-- A response entry acknowledging venue id 9 with the flag " Success ",
truthy after trimming and lowercasing. -/
def c5entry : JVal :=
  JVal.jdict [("order_id", JVal.jstr "9"), ("result", JVal.jstr " Success ")]

theorem c5_witness :
    c5order ∈ (processChunk [(c5order, "9")] (some [c5entry])).1 :=
  (c5_chunk_success_iff_truthy_ack [(c5order, "9")] [c5entry]
      (by decide) (by decide) c5order "9" (by decide)).1.mpr
    ⟨c5entry, List.mem_cons_self _ _, by decide, by decide⟩

/-- Occurrence counter on id lists (structural, kernel-evaluable). -/
def cntStr : List String → String → Nat
  | [], _ => 0
  | s :: rest, cid => (if s = cid then 1 else 0) + cntStr rest cid

/-- Occurrences of a client order id among a list of orders. -/
def cntO (l : List IFOrder) (cid : String) : Nat :=
  cntStr (l.map (fun o => o.clientOrderId)) cid

theorem cntO_cons (o : IFOrder) (l : List IFOrder) (cid : String) :
    cntO (o :: l) cid =
      (if o.clientOrderId = cid then 1 else 0) + cntO l cid := rfl

theorem cntStr_append (a b : List String) (cid : String) :
    cntStr (a ++ b) cid = cntStr a cid + cntStr b cid := by
  induction a with
  | nil => simp [cntStr]
  | cons s rest ih => simp [cntStr, ih, Nat.add_assoc]

theorem cntO_append (a b : List IFOrder) (cid : String) :
    cntO (a ++ b) cid = cntO a cid + cntO b cid := by
  unfold cntO
  rw [List.map_append, cntStr_append]

theorem cntStr_filter_le (l : List String) (p : String → Bool) (cid : String) :
    cntStr (l.filter p) cid ≤ cntStr l cid := by
  induction l with
  | nil => exact Nat.le_refl _
  | cons s rest ih =>
    by_cases h : p s = true
    · rw [List.filter_cons_of_pos h]
      simp only [cntStr]
      omega
    · rw [List.filter_cons_of_neg (by simpa using h)]
      simp only [cntStr]
      omega

theorem cntO_filter_le (l : List IFOrder) (p : IFOrder → Bool) (cid : String) :
    cntO (l.filter p) cid ≤ cntO l cid := by
  induction l with
  | nil => exact Nat.le_refl _
  | cons o rest ih =>
    by_cases h : p o = true
    · rw [List.filter_cons_of_pos h, cntO_cons, cntO_cons]
      omega
    · rw [List.filter_cons_of_neg (by simpa using h), cntO_cons]
      omega

theorem cntStr_take_le (l : List String) (k : Nat) (cid : String) :
    cntStr (l.take k) cid ≤ cntStr l cid := by
  have hsplit : l.take k ++ l.drop k = l := List.take_append_drop k l
  calc cntStr (l.take k) cid
      ≤ cntStr (l.take k) cid + cntStr (l.drop k) cid := Nat.le_add_right _ _
    _ = cntStr (l.take k ++ l.drop k) cid := (cntStr_append _ _ _).symm
    _ = cntStr l cid := by rw [hsplit]

theorem cntStr_nodup (l : List String) (hl : l.Nodup) (cid : String) :
    cntStr l cid = if cid ∈ l then 1 else 0 := by
  induction l with
  | nil => simp [cntStr]
  | cons s rest ih =>
    have h2 := ih (List.nodup_cons.mp hl).2
    by_cases h : s = cid
    · subst h
      have hnm : s ∉ rest := (List.nodup_cons.mp hl).1
      simp [cntStr, h2, hnm]
    · have h3 : ¬ (cid = s) := fun he => h he.symm
      simp [cntStr, h2, h, h3]

theorem cntStr_pos_mem (l : List String) (cid : String)
    (h : 0 < cntStr l cid) : cid ∈ l := by
  induction l with
  | nil => simp [cntStr] at h
  | cons s rest ih =>
    by_cases hs : s = cid
    · subst hs
      exact List.mem_cons_self _ _
    · simp only [cntStr, if_neg hs, Nat.zero_add] at h
      exact List.mem_cons_of_mem _ (ih h)

theorem mem_cntStr_pos (l : List String) (cid : String)
    (h : cid ∈ l) : 0 < cntStr l cid := by
  induction l with
  | nil => cases h
  | cons s rest ih =>
    rcases List.mem_cons.mp h with he | ht
    · simp [cntStr, he.symm]
    · simp only [cntStr]
      have := ih ht
      omega

theorem cntStr_eq_count (l : List String) (cid : String) :
    cntStr l cid = l.count cid := by
  induction l with
  | nil => rfl
  | cons s rest ih =>
    rw [List.count_cons]
    by_cases h : cid = s
    · subst h
      simp [cntStr, ih, Nat.add_comm]
    · have h2 : ¬ (s = cid) := fun he => h he.symm
      simp [cntStr, ih, h, h2]

theorem replace_vals_cnt (m : List (String × IFOrder)) (k : String)
    (o : IFOrder) (cid : String) (hm : keysNodup m) :
    cntO ((m.map (fun kv => if kv.1 = k then (k, o) else kv)).map
        (fun kv => kv.2)) cid ≤
      cntO (m.map (fun kv => kv.2)) cid +
        (if o.clientOrderId = cid then 1 else 0) := by
  induction m with
  | nil => simp [cntO, cntStr]
  | cons kv rest ih =>
    obtain ⟨k2, v2⟩ := kv
    have hm2 : keysNodup rest := (List.nodup_cons.mp hm).2
    by_cases hk : k2 = k
    · subst hk
      have hhead : (if ((k2, v2) : String × IFOrder).1 = k2 then (k2, o)
          else (k2, v2)) = (k2, o) := if_pos rfl
      have hrest : rest.map (fun kv => if kv.1 = k2 then (k2, o) else kv) =
          rest := by
        have hcong : rest.map (fun kv => if kv.1 = k2 then (k2, o) else kv) =
            rest.map id := by
          apply List.map_congr_left
          intro kv2 hkv2
          have hne : kv2.1 ≠ k2 := by
            intro he
            apply (List.nodup_cons.mp hm).1
            rw [← he]
            exact List.mem_map.mpr ⟨kv2, hkv2, rfl⟩
          simp [hne]
        rw [hcong, List.map_id]
      have hlist : ((k2, v2) :: rest).map
          (fun kv => if kv.1 = k2 then (k2, o) else kv) = (k2, o) :: rest := by
        rw [List.map_cons, hhead, hrest]
      rw [hlist]
      have hl2 : ((k2, o) :: rest).map (fun kv => kv.2) =
          o :: rest.map (fun kv => kv.2) := rfl
      have hl3 : ((k2, v2) :: rest).map (fun kv => kv.2) =
          v2 :: rest.map (fun kv => kv.2) := rfl
      rw [hl2, hl3, cntO_cons, cntO_cons]
      omega
    · have hhead : (if ((k2, v2) : String × IFOrder).1 = k then (k, o)
          else (k2, v2)) = (k2, v2) := if_neg hk
      have hlist : ((k2, v2) :: rest).map
          (fun kv => if kv.1 = k then (k, o) else kv) =
          (k2, v2) :: rest.map (fun kv => if kv.1 = k then (k, o) else kv) := by
        rw [List.map_cons, hhead]
      rw [hlist]
      have hl2 : ((k2, v2) ::
          rest.map (fun kv => if kv.1 = k then (k, o) else kv)).map
            (fun kv => kv.2) =
          v2 :: (rest.map (fun kv => if kv.1 = k then (k, o) else kv)).map
            (fun kv => kv.2) := rfl
      have hl3 : ((k2, v2) :: rest).map (fun kv => kv.2) =
          v2 :: rest.map (fun kv => kv.2) := rfl
      rw [hl2, hl3, cntO_cons, cntO_cons]
      have hih := ih hm2
      omega

theorem replace_keys_eq {α : Type} (m : List (String × α)) (k : String)
    (v : α) :
    (m.map (fun kv => if kv.1 = k then (k, v) else kv)).map (fun kv => kv.1) =
      m.map (fun kv => kv.1) := by
  rw [List.map_map]
  apply List.map_congr_left
  intro kv _
  by_cases h : kv.1 = k
  · simp [h]
  · simp [h]

theorem assocSet_keysNodup {α : Type} (m : List (String × α)) (k : String)
    (v : α) (hm : keysNodup m) : keysNodup (assocSet m k v) := by
  unfold assocSet
  by_cases h : m.any (fun kv => kv.1 == k) = true
  · rw [if_pos h]
    show ((m.map (fun kv => if kv.1 = k then (k, v) else kv)).map
        (fun kv => kv.1)).Nodup
    rw [replace_keys_eq]
    exact hm
  · rw [if_neg h]
    show ((m ++ [(k, v)]).map (fun kv => kv.1)).Nodup
    rw [List.map_append]
    have hk : k ∉ m.map (fun kv => kv.1) := by
      intro hc
      apply h
      obtain ⟨kv, hkv, he⟩ := List.mem_map.mp hc
      exact List.any_eq_true.mpr ⟨kv, hkv, by simp [he]⟩
    rw [List.nodup_append]
    refine ⟨hm, List.nodup_singleton _, ?_⟩
    intro a ha hb
    rw [List.map_cons, List.map_nil, List.mem_singleton] at hb
    subst hb
    exact hk ha

theorem assocSet_vals_cnt (m : List (String × IFOrder)) (k : String)
    (o : IFOrder) (cid : String) (hm : keysNodup m) :
    cntO ((assocSet m k o).map (fun kv => kv.2)) cid ≤
      cntO (m.map (fun kv => kv.2)) cid +
        (if o.clientOrderId = cid then 1 else 0) := by
  unfold assocSet
  by_cases h : m.any (fun kv => kv.1 == k) = true
  · rw [if_pos h]
    exact replace_vals_cnt m k o cid hm
  · rw [if_neg h]
    rw [List.map_append, cntO_append]
    have hsingle : cntO ([(k, o)].map (fun kv => kv.2)) cid =
        if o.clientOrderId = cid then 1 else 0 := by
      simp [cntO, cntStr]
    omega

theorem buildLookup_cnt_aux (chunk : List (IFOrder × String)) (cid : String) :
    ∀ acc : List (String × IFOrder), keysNodup acc →
      keysNodup (chunk.foldl (fun m p => assocSet m p.2 p.1) acc) ∧
      cntO ((chunk.foldl (fun m p => assocSet m p.2 p.1) acc).map
          (fun kv => kv.2)) cid ≤
        cntO (acc.map (fun kv => kv.2)) cid +
          cntO (chunk.map Prod.fst) cid := by
  induction chunk with
  | nil =>
    intro acc hacc
    exact ⟨hacc, by simp [cntO, cntStr]⟩
  | cons p rest ih =>
    intro acc hacc
    obtain ⟨o, rid⟩ := p
    rw [List.foldl_cons]
    have hbeta : assocSet acc ((o, rid) : IFOrder × String).2
        ((o, rid) : IFOrder × String).1 = assocSet acc rid o := rfl
    rw [hbeta]
    have hset := assocSet_keysNodup acc rid o hacc
    obtain ⟨ihn, ihc⟩ := ih (assocSet acc rid o) hset
    refine ⟨ihn, ?_⟩
    have hv := assocSet_vals_cnt acc rid o cid hacc
    have hhead : cntO (((o, rid) :: rest).map Prod.fst) cid =
        (if o.clientOrderId = cid then 1 else 0) +
          cntO (rest.map Prod.fst) cid := rfl
    rw [hhead]
    omega

theorem buildLookup_cnt (chunk : List (IFOrder × String)) (cid : String) :
    keysNodup (buildLookup chunk) ∧
    cntO ((buildLookup chunk).map (fun kv => kv.2)) cid ≤
      cntO (chunk.map Prod.fst) cid := by
  obtain ⟨h1, h2⟩ := buildLookup_cnt_aux chunk cid [] (by simp [keysNodup])
  exact ⟨h1, by simpa [cntO, cntStr] using h2⟩

theorem filter_cons_pos_str {α : Type} (p : α → Bool) (a : α) (l : List α)
    (h : p a = true) : (a :: l).filter p = a :: l.filter p := by
  simp [List.filter_cons, h]

theorem filter_cons_neg_str {α : Type} (p : α → Bool) (a : α) (l : List α)
    (h : p a = false) : (a :: l).filter p = l.filter p := by
  simp [List.filter_cons, h]

theorem cnt_filter_ack_extend (acked : List String) (rid : String)
    (o : IFOrder) (hr : rid ∉ acked) (cid : String) :
    ∀ lookup : List (String × IFOrder), keysNodup lookup →
      (rid, o) ∈ lookup →
      cntO ((lookup.filter (fun kv =>
          !((acked ++ [rid]).contains kv.1))).map (fun kv => kv.2)) cid +
        (if o.clientOrderId = cid then 1 else 0) =
      cntO ((lookup.filter (fun kv => !(acked.contains kv.1))).map
        (fun kv => kv.2)) cid := by
  intro lookup
  induction lookup with
  | nil =>
    intro _ hmem
    cases hmem
  | cons kv rest ih =>
    intro hkn hmem
    obtain ⟨k2, v2⟩ := kv
    have hnd2 : keysNodup rest := (List.nodup_cons.mp hkn).2
    by_cases hk : k2 = rid
    · have hvo : v2 = o := by
        rcases List.mem_cons.mp hmem with he | ht
        · injection he with _ hov
          exact hov.symm
        · exfalso
          apply (List.nodup_cons.mp hkn).1
          rw [hk]
          exact List.mem_map.mpr ⟨(rid, o), ht, rfl⟩
      have hcontF : acked.contains k2 = false := by
        rw [hk]
        simp [hr]
      have hcontT : (acked ++ [rid]).contains k2 = true := by
        rw [hk]
        have hm : rid ∈ acked ++ [rid] := List.mem_append_right _ (by simp)
        simp [hm]
      have eA : (fun kv => !((acked ++ [rid]).contains kv.1))
          ((k2, v2) : String × IFOrder) = false := by
        show (!((acked ++ [rid]).contains k2)) = false
        rw [hcontT]
        rfl
      have eB : (fun kv => !(acked.contains kv.1))
          ((k2, v2) : String × IFOrder) = true := by
        show (!(acked.contains k2)) = true
        rw [hcontF]
        rfl
      rw [filter_cons_neg_str (fun kv => !((acked ++ [rid]).contains kv.1))
            ((k2, v2)) rest eA,
          filter_cons_pos_str (fun kv => !(acked.contains kv.1))
            ((k2, v2)) rest eB]
      have hrest : rest.filter (fun kv => !((acked ++ [rid]).contains kv.1)) =
          rest.filter (fun kv => !(acked.contains kv.1)) := by
        apply List.filter_congr
        intro kv2 hkv2
        have hne : kv2.1 ≠ rid := by
          intro he
          apply (List.nodup_cons.mp hkn).1
          rw [hk, ← he]
          exact List.mem_map.mpr ⟨kv2, hkv2, rfl⟩
        rw [contains_append_single _ _ _ hne]
      rw [hrest]
      have hl2 : ((k2, v2) ::
          rest.filter (fun kv => !(acked.contains kv.1))).map
            (fun kv => kv.2) =
          v2 :: (rest.filter (fun kv => !(acked.contains kv.1))).map
            (fun kv => kv.2) := rfl
      rw [hl2, cntO_cons, hvo]
      omega
    · have hmem2 : (rid, o) ∈ rest := by
        rcases List.mem_cons.mp hmem with he | ht
        · injection he with h1 _
          exact absurd h1.symm hk
        · exact ht
      have hcs : (acked ++ [rid]).contains k2 = acked.contains k2 :=
        contains_append_single _ _ _ hk
      by_cases hc : acked.contains k2 = true
      · have eA : (fun kv => !((acked ++ [rid]).contains kv.1))
            ((k2, v2) : String × IFOrder) = false := by
          show (!((acked ++ [rid]).contains k2)) = false
          rw [hcs, hc]
          rfl
        have eB : (fun kv => !(acked.contains kv.1))
            ((k2, v2) : String × IFOrder) = false := by
          show (!(acked.contains k2)) = false
          rw [hc]
          rfl
        rw [filter_cons_neg_str (fun kv => !((acked ++ [rid]).contains kv.1))
              ((k2, v2)) rest eA,
            filter_cons_neg_str (fun kv => !(acked.contains kv.1))
              ((k2, v2)) rest eB]
        exact ih hnd2 hmem2
      · have hcf : acked.contains k2 = false := by simpa using hc
        have eA : (fun kv => !((acked ++ [rid]).contains kv.1))
            ((k2, v2) : String × IFOrder) = true := by
          show (!((acked ++ [rid]).contains k2)) = true
          rw [hcs, hcf]
          rfl
        have eB : (fun kv => !(acked.contains kv.1))
            ((k2, v2) : String × IFOrder) = true := by
          show (!(acked.contains k2)) = true
          rw [hcf]
          rfl
        rw [filter_cons_pos_str (fun kv => !((acked ++ [rid]).contains kv.1))
              ((k2, v2)) rest eA,
            filter_cons_pos_str (fun kv => !(acked.contains kv.1))
              ((k2, v2)) rest eB]
        have hl2 : ((k2, v2) ::
            rest.filter (fun kv => !((acked ++ [rid]).contains kv.1))).map
              (fun kv => kv.2) =
            v2 :: (rest.filter (fun kv =>
              !((acked ++ [rid]).contains kv.1))).map (fun kv => kv.2) := rfl
        have hl3 : ((k2, v2) ::
            rest.filter (fun kv => !(acked.contains kv.1))).map
              (fun kv => kv.2) =
            v2 :: (rest.filter (fun kv => !(acked.contains kv.1))).map
              (fun kv => kv.2) := rfl
        rw [hl2, hl3, cntO_cons, cntO_cons]
        have hih := ih hnd2 hmem2
        omega

/-- The amendment hypothesis of claim C1: every chunk response acknowledges
each venue id at most once. -/
def ackNodupResp : Option (List JVal) → Prop
  | some es => (es.filterMap ackIdOf).Nodup
  | none => True

theorem chunkFold_cnt (lookup : List (String × IFOrder))
    (hkn : keysNodup lookup) (cid : String) :
    ∀ (es : List JVal) (acc : ChunkAcc),
      (es.filterMap ackIdOf).Nodup →
      (∀ r ∈ es.filterMap ackIdOf, r ∉ acc.acked) →
      cntO (es.foldl (chunkStep lookup) acc).succs cid +
        cntO (es.foldl (chunkStep lookup) acc).fails cid +
        cntO ((lookup.filter (fun kv =>
            !((es.foldl (chunkStep lookup) acc).acked.contains kv.1))).map
          (fun kv => kv.2)) cid =
      cntO acc.succs cid + cntO acc.fails cid +
        cntO ((lookup.filter (fun kv => !(acc.acked.contains kv.1))).map
          (fun kv => kv.2)) cid := by
  intro es
  induction es with
  | nil =>
    intro acc _ _
    rfl
  | cons e rest ih =>
    intro acc hnd hfresh
    rw [List.foldl_cons]
    cases ha : ackIdOf e with
    | none =>
      have hstep : chunkStep lookup acc e = acc := by
        simp [chunkStep, ha]
      rw [hstep]
      have hskip : (e :: rest).filterMap ackIdOf = rest.filterMap ackIdOf := by
        simp [List.filterMap_cons, ha]
      rw [hskip] at hnd hfresh
      exact ih acc hnd hfresh
    | some rid =>
      have hcons : (e :: rest).filterMap ackIdOf =
          rid :: rest.filterMap ackIdOf := by
        simp [List.filterMap_cons, ha]
      rw [hcons] at hnd hfresh
      have hrnot : rid ∉ rest.filterMap ackIdOf := (List.nodup_cons.mp hnd).1
      have hnd2 : (rest.filterMap ackIdOf).Nodup := (List.nodup_cons.mp hnd).2
      have hr : rid ∉ acc.acked := hfresh rid (List.mem_cons_self _ _)
      have hfresh2 : ∀ r ∈ rest.filterMap ackIdOf,
          r ∉ acc.acked ++ [rid] := by
        intro r hr2 hc
        rcases List.mem_append.mp hc with hin | hin
        · exact hfresh r (List.mem_cons_of_mem _ hr2) hin
        · rw [List.mem_singleton] at hin
          subst hin
          exact hrnot hr2
      cases hg : assocGet lookup rid with
      | none =>
        have hstep : chunkStep lookup acc e =
            { acc with acked := acc.acked ++ [rid] } := by
          simp [chunkStep, ha, hg]
        rw [hstep,
          ih ({ acc with acked := acc.acked ++ [rid] }) hnd2 hfresh2]
        have e1 : ({ acc with acked := acc.acked ++ [rid] } :
            ChunkAcc).succs = acc.succs := rfl
        have e2 : ({ acc with acked := acc.acked ++ [rid] } :
            ChunkAcc).fails = acc.fails := rfl
        have e3 : ({ acc with acked := acc.acked ++ [rid] } :
            ChunkAcc).acked = acc.acked ++ [rid] := rfl
        rw [e1, e2, e3]
        have hfilter : lookup.filter
            (fun kv => !((acc.acked ++ [rid]).contains kv.1)) =
            lookup.filter (fun kv => !(acc.acked.contains kv.1)) := by
          apply List.filter_congr
          intro kv hkv
          have hne : kv.1 ≠ rid := assocGet_none_imp lookup rid hg kv hkv
          rw [contains_append_single _ _ _ hne]
        rw [hfilter]
      | some o =>
        by_cases ht : isTruthy (entryResult e) = true
        · have hstep : chunkStep lookup acc e =
              { acc with
                  succs := acc.succs ++ [o]
                  acked := acc.acked ++ [rid] } := by
            simp [chunkStep, ha, hg, ht]
          rw [hstep, ih ({ acc with
            succs := acc.succs ++ [o]
            acked := acc.acked ++ [rid] }) hnd2 hfresh2]
          have e1 : ({ acc with
              succs := acc.succs ++ [o]
              acked := acc.acked ++ [rid] } : ChunkAcc).succs =
              acc.succs ++ [o] := rfl
          have e2 : ({ acc with
              succs := acc.succs ++ [o]
              acked := acc.acked ++ [rid] } : ChunkAcc).fails =
              acc.fails := rfl
          have e3 : ({ acc with
              succs := acc.succs ++ [o]
              acked := acc.acked ++ [rid] } : ChunkAcc).acked =
              acc.acked ++ [rid] := rfl
          rw [e1, e2, e3, cntO_append]
          have hcf := cnt_filter_ack_extend acc.acked rid o hr cid lookup
            hkn (mem_of_assocGet _ _ _ hg)
          have hso : cntO [o] cid =
              if o.clientOrderId = cid then 1 else 0 := by
            simp [cntO, cntStr]
          omega
        · have hstep : chunkStep lookup acc e =
              { acc with
                  fails := acc.fails ++ [o]
                  acked := acc.acked ++ [rid] } := by
            simp [chunkStep, ha, hg, ht]
          rw [hstep, ih ({ acc with
            fails := acc.fails ++ [o]
            acked := acc.acked ++ [rid] }) hnd2 hfresh2]
          have e1 : ({ acc with
              fails := acc.fails ++ [o]
              acked := acc.acked ++ [rid] } : ChunkAcc).succs =
              acc.succs := rfl
          have e2 : ({ acc with
              fails := acc.fails ++ [o]
              acked := acc.acked ++ [rid] } : ChunkAcc).fails =
              acc.fails ++ [o] := rfl
          have e3 : ({ acc with
              fails := acc.fails ++ [o]
              acked := acc.acked ++ [rid] } : ChunkAcc).acked =
              acc.acked ++ [rid] := rfl
          rw [e1, e2, e3, cntO_append]
          have hcf := cnt_filter_ack_extend acc.acked rid o hr cid lookup
            hkn (mem_of_assocGet _ _ _ hg)
          have hso : cntO [o] cid =
              if o.clientOrderId = cid then 1 else 0 := by
            simp [cntO, cntStr]
          omega

theorem processChunk_cnt (chunk : List (IFOrder × String))
    (resp : Option (List JVal)) (hresp : ackNodupResp resp) (cid : String) :
    cntO (processChunk chunk resp).1 cid +
      cntO (processChunk chunk resp).2 cid ≤
      cntO (chunk.map Prod.fst) cid := by
  obtain ⟨hkn, hcnt⟩ := buildLookup_cnt chunk cid
  have h0 : cntO ([] : List IFOrder) cid = 0 := rfl
  cases resp with
  | none =>
    have hpc1 : (processChunk chunk none).1 = [] := rfl
    have hpc2 : (processChunk chunk none).2 =
        (buildLookup chunk).map (fun kv => kv.2) := rfl
    rw [hpc1, hpc2, h0]
    omega
  | some entries =>
    by_cases hemp : entries.isEmpty = true
    · have hes : entries = [] := by
        cases entries with
        | nil => rfl
        | cons a l => simp at hemp
      subst hes
      have hpc1 : (processChunk chunk (some [])).1 = [] := rfl
      have hpc2 : (processChunk chunk (some [])).2 =
          (buildLookup chunk).map (fun kv => kv.2) := rfl
      rw [hpc1, hpc2, h0]
      omega
    · have hempf : entries.isEmpty = false := by simpa using hemp
      have hpc : processChunk chunk (some entries) =
          ((entries.foldl (chunkStep (buildLookup chunk)) ⟨[], [], []⟩).succs,
           (entries.foldl (chunkStep (buildLookup chunk)) ⟨[], [], []⟩).fails ++
             ((buildLookup chunk).filter (fun kv =>
                 !((entries.foldl (chunkStep (buildLookup chunk))
                     ⟨[], [], []⟩).acked.contains kv.1))).map
               (fun kv => kv.2)) := by
        simp [processChunk, hempf]
      have hpc1 : (processChunk chunk (some entries)).1 =
          (entries.foldl (chunkStep (buildLookup chunk)) ⟨[], [], []⟩).succs := by
        rw [hpc]
      have hpc2 : (processChunk chunk (some entries)).2 =
          (entries.foldl (chunkStep (buildLookup chunk)) ⟨[], [], []⟩).fails ++
            ((buildLookup chunk).filter (fun kv =>
                !((entries.foldl (chunkStep (buildLookup chunk))
                    ⟨[], [], []⟩).acked.contains kv.1))).map
              (fun kv => kv.2) := by
        rw [hpc]
      have hnd : (entries.filterMap ackIdOf).Nodup := hresp
      have hfr : ∀ r ∈ entries.filterMap ackIdOf,
          r ∉ (⟨[], [], []⟩ : ChunkAcc).acked := by
        intro r _
        exact List.not_mem_nil r
      have hfold := chunkFold_cnt (buildLookup chunk) hkn cid entries
        ⟨[], [], []⟩ hnd hfr
      have e1 : ((⟨[], [], []⟩ : ChunkAcc)).succs = [] := rfl
      have e2 : ((⟨[], [], []⟩ : ChunkAcc)).fails = [] := rfl
      have e3 : ((⟨[], [], []⟩ : ChunkAcc)).acked = ([] : List String) := rfl
      rw [e1, e2, e3, h0] at hfold
      have hft : (buildLookup chunk).filter
          (fun kv => !(([] : List String).contains kv.1)) =
          buildLookup chunk := by
        apply List.filter_eq_self.mpr
        intro kv _
        rfl
      rw [hft] at hfold
      rw [hpc1, hpc2, cntO_append]
      omega

theorem chunkListFuel_join (fuel : Nat) :
    ∀ l : List (IFOrder × String), (chunkListFuel fuel l).flatten = l := by
  induction fuel with
  | zero =>
    intro l
    cases l with
    | nil => rfl
    | cons x xs => simp [chunkListFuel]
  | succ n ih =>
    intro l
    cases l with
    | nil => rfl
    | cons x xs =>
      show ((x :: xs).take bulkCancelMaxSize) ++
        (chunkListFuel n ((x :: xs).drop bulkCancelMaxSize)).flatten = x :: xs
      rw [ih ((x :: xs).drop bulkCancelMaxSize)]
      exact List.take_append_drop _ _

theorem runChunks_cnt (env : CancelEnv)
    (hresp : ∀ j, ackNodupResp (env.chunkResp j)) (cid : String) :
    ∀ (chunks : List (List (IFOrder × String))) (i : Nat),
      cntO (runChunks env chunks i).1 cid +
        cntO (runChunks env chunks i).2 cid ≤
        cntO ((chunks.flatten).map Prod.fst) cid := by
  intro chunks
  induction chunks with
  | nil =>
    intro i
    have h1 : (runChunks env [] i).1 = [] := rfl
    have h2 : (runChunks env [] i).2 = [] := rfl
    have h3 : ((([] : List (List (IFOrder × String))).flatten).map Prod.fst) =
        ([] : List IFOrder) := rfl
    have h0 : cntO ([] : List IFOrder) cid = 0 := rfl
    rw [h1, h2, h3, h0]
  | cons c rest ih =>
    intro i
    have hrc1 : (runChunks env (c :: rest) i).1 =
        (processChunk c (env.chunkResp i)).1 ++
          (runChunks env rest (i + 1)).1 := rfl
    have hrc2 : (runChunks env (c :: rest) i).2 =
        (processChunk c (env.chunkResp i)).2 ++
          (runChunks env rest (i + 1)).2 := rfl
    rw [hrc1, hrc2, cntO_append, cntO_append]
    have h1 := processChunk_cnt c (env.chunkResp i) (hresp i) cid
    have h2 := ih (i + 1)
    have hj : (((c :: rest).flatten).map Prod.fst) =
        c.map Prod.fst ++ (rest.flatten).map Prod.fst := by
      show ((c ++ rest.flatten).map Prod.fst) =
        c.map Prod.fst ++ (rest.flatten).map Prod.fst
      exact List.map_append _ _ _
    rw [hj, cntO_append]
    omega

theorem executeBatchCancel_cnt (env : CancelEnv)
    (hresp : ∀ j, ackNodupResp (env.chunkResp j))
    (cands : List (IFOrder × String)) (cid : String) :
    cntO (executeBatchCancel env cands).1 cid +
      cntO (executeBatchCancel env cands).2 cid ≤
      cntO (cands.map Prod.fst) cid := by
  have h := runChunks_cnt env hresp cid (chunkList cands) 0
  have hj : (chunkList cands).flatten = cands := chunkListFuel_join _ _
  rw [hj] at h
  exact h

/-- The loop body of _build_batch_cancel_candidates, named so that the
foldl can be reasoned about with an arbitrary accumulator. -/
def candStep (env : CancelEnv)
    (acc : List (IFOrder × String) × List IFOrder) (o : IFOrder) :
    List (IFOrder × String) × List IFOrder :=
  match resolveCancelId env o with
  | none => (acc.1, acc.2 ++ [o])
  | some eid =>
    match env.symbolFor o.tradingPair with
    | none => (acc.1, acc.2 ++ [o])
    | some _ => (acc.1 ++ [(o, eid)], acc.2)

theorem buildCand_eq_foldl (env : CancelEnv) (orders : List IFOrder) :
    buildBatchCancelCandidates env orders =
      orders.foldl (candStep env) ([], []) := rfl

theorem candFold_cnt (env : CancelEnv) (cid : String) :
    ∀ (orders : List IFOrder) (acc : List (IFOrder × String) × List IFOrder),
      cntO ((orders.foldl (candStep env) acc).1.map Prod.fst) cid +
        cntO (orders.foldl (candStep env) acc).2 cid =
      cntO (acc.1.map Prod.fst) cid + cntO acc.2 cid + cntO orders cid := by
  intro orders
  induction orders with
  | nil =>
    intro acc
    have h0 : cntO ([] : List IFOrder) cid = 0 := rfl
    rw [List.foldl_nil, h0]
    omega
  | cons o rest ih =>
    intro acc
    rw [List.foldl_cons]
    cases hr : resolveCancelId env o with
    | none =>
      have hstep : candStep env acc o = (acc.1, acc.2 ++ [o]) := by
        simp [candStep, hr]
      rw [hstep, ih ((acc.1, acc.2 ++ [o]))]
      have e1 : ((acc.1, acc.2 ++ [o]) :
          List (IFOrder × String) × List IFOrder).1 = acc.1 := rfl
      have e2 : ((acc.1, acc.2 ++ [o]) :
          List (IFOrder × String) × List IFOrder).2 = acc.2 ++ [o] := rfl
      rw [e1, e2, cntO_append]
      have hso : cntO [o] cid = if o.clientOrderId = cid then 1 else 0 := by
        simp [cntO, cntStr]
      rw [hso, cntO_cons]
      omega
    | some eid =>
      cases hs : env.symbolFor o.tradingPair with
      | none =>
        have hstep : candStep env acc o = (acc.1, acc.2 ++ [o]) := by
          simp [candStep, hr, hs]
        rw [hstep, ih ((acc.1, acc.2 ++ [o]))]
        have e1 : ((acc.1, acc.2 ++ [o]) :
            List (IFOrder × String) × List IFOrder).1 = acc.1 := rfl
        have e2 : ((acc.1, acc.2 ++ [o]) :
            List (IFOrder × String) × List IFOrder).2 = acc.2 ++ [o] := rfl
        rw [e1, e2, cntO_append]
        have hso : cntO [o] cid = if o.clientOrderId = cid then 1 else 0 := by
          simp [cntO, cntStr]
        rw [hso, cntO_cons]
        omega
      | some sym =>
        have hstep : candStep env acc o = (acc.1 ++ [(o, eid)], acc.2) := by
          simp [candStep, hr, hs]
        rw [hstep, ih ((acc.1 ++ [(o, eid)], acc.2))]
        have e1 : ((acc.1 ++ [(o, eid)], acc.2) :
            List (IFOrder × String) × List IFOrder).1 =
            acc.1 ++ [(o, eid)] := rfl
        have e2 : ((acc.1 ++ [(o, eid)], acc.2) :
            List (IFOrder × String) × List IFOrder).2 = acc.2 := rfl
        rw [e1, e2, List.map_append, cntO_append]
        have hso : cntO ([(o, eid)].map Prod.fst) cid =
            if o.clientOrderId = cid then 1 else 0 := by
          simp [cntO, cntStr]
        rw [hso, cntO_cons]
        omega

theorem buildCand_cnt (env : CancelEnv) (orders : List IFOrder)
    (cid : String) :
    cntO ((buildBatchCancelCandidates env orders).1.map Prod.fst) cid +
      cntO (buildBatchCancelCandidates env orders).2 cid =
      cntO orders cid := by
  rw [buildCand_eq_foldl]
  rw [candFold_cnt env cid orders ([], [])]
  have e1 : cntO (((([], []) :
      List (IFOrder × String) × List IFOrder)).1.map Prod.fst) cid = 0 := rfl
  have e2 : cntO ((([], []) :
      List (IFOrder × String) × List IFOrder)).2 cid = 0 := rfl
  rw [e1, e2]
  omega

/-- The not-yet-done orders cancel_all works on. -/
def cafIncomplete (orders : List IFOrder) : List IFOrder :=
  orders.filter (fun o => !o.isDone)

/-- Batch candidates and individual fallbacks of this cancel_all run. -/
def cafBC (orders : List IFOrder) (env : CancelEnv) :
    List (IFOrder × String) × List IFOrder :=
  buildBatchCancelCandidates env (cafIncomplete orders)

/-- The batch result of this cancel_all run. -/
def cafBR (orders : List IFOrder) (env : CancelEnv) :
    List IFOrder × List IFOrder :=
  executeBatchCancel env (cafBC orders env).1

/-- Orders routed to individual cancellation. -/
def cafFallback (orders : List IFOrder) (env : CancelEnv) : List IFOrder :=
  (cafBC orders env).2 ++ (cafBR orders env).2

/-- All success ids of a run that is not interrupted. -/
def cafFullSucc (orders : List IFOrder) (env : CancelEnv) : List String :=
  (cafBR orders env).1.map (fun o => o.clientOrderId) ++
    ((cafFallback orders env).filter
        (fun o => env.indivSuccess o.clientOrderId)).map
      (fun o => o.clientOrderId)

/-- The success ids actually recorded, cut at the abort point. -/
def cafSucc (orders : List IFOrder) (env : CancelEnv) : List String :=
  match env.abortAfter with
  | none => cafFullSucc orders env
  | some k => (cafFullSucc orders env).take k

/-- cancel_all with a nonempty incomplete set, spelled through the staged
definitions above. -/
def cancelAllCore (orders : List IFOrder) (env : CancelEnv) :
    List (String × Bool) :=
  (cafSucc orders env).map (fun c => (c, true)) ++
    (((cafIncomplete orders).map (fun o => o.clientOrderId)).filter
        (fun c => !((cafSucc orders env).contains c))).map
      (fun c => (c, false))

theorem cancelAll_eq_core (orders : List IFOrder) (env : CancelEnv)
    (h : (orders.filter (fun o => !o.isDone)).isEmpty = false) :
    cancelAll orders env = cancelAllCore orders env := by
  simp [cancelAll, cancelAllCore, cafSucc, cafFullSucc, cafFallback, cafBR,
    cafBC, cafIncomplete, h]

theorem cancelAllCore_cnt (orders : List IFOrder) (env : CancelEnv)
    (hn : ((cafIncomplete orders).map (fun o => o.clientOrderId)).Nodup)
    (hresp : ∀ j, ackNodupResp (env.chunkResp j)) (cid : String) :
    cntStr ((cancelAllCore orders env).map (fun r => r.1)) cid =
      if cid ∈ (cafIncomplete orders).map (fun o => o.clientOrderId)
      then 1 else 0 := by
  have hfull : cntStr (cafFullSucc orders env) cid ≤
      cntO (cafIncomplete orders) cid := by
    unfold cafFullSucc
    rw [cntStr_append]
    have h1 : cntStr ((cafBR orders env).1.map
        (fun o => o.clientOrderId)) cid = cntO (cafBR orders env).1 cid := rfl
    have h2 : cntStr (((cafFallback orders env).filter
        (fun o => env.indivSuccess o.clientOrderId)).map
          (fun o => o.clientOrderId)) cid =
        cntO ((cafFallback orders env).filter
          (fun o => env.indivSuccess o.clientOrderId)) cid := rfl
    rw [h1, h2]
    have h3 : cntO ((cafFallback orders env).filter
        (fun o => env.indivSuccess o.clientOrderId)) cid ≤
        cntO (cafFallback orders env) cid := cntO_filter_le _ _ _
    have h4 : cntO (cafFallback orders env) cid =
        cntO (cafBC orders env).2 cid + cntO (cafBR orders env).2 cid := by
      unfold cafFallback
      rw [cntO_append]
    have h5 : cntO (cafBR orders env).1 cid + cntO (cafBR orders env).2 cid ≤
        cntO ((cafBC orders env).1.map Prod.fst) cid := by
      unfold cafBR
      exact executeBatchCancel_cnt env hresp _ cid
    have h6 : cntO ((cafBC orders env).1.map Prod.fst) cid +
        cntO (cafBC orders env).2 cid = cntO (cafIncomplete orders) cid := by
      unfold cafBC
      exact buildCand_cnt env _ cid
    omega
  have hsucc_le : cntStr (cafSucc orders env) cid ≤
      cntStr (cafFullSucc orders env) cid := by
    unfold cafSucc
    cases henv : env.abortAfter with
    | none => exact Nat.le_refl _
    | some k => exact cntStr_take_le _ _ _
  have hIcnt : cntO (cafIncomplete orders) cid =
      if cid ∈ (cafIncomplete orders).map (fun o => o.clientOrderId)
      then 1 else 0 := cntStr_nodup _ hn cid
  have hmap : (cancelAllCore orders env).map (fun r => r.1) =
      cafSucc orders env ++
        ((cafIncomplete orders).map (fun o => o.clientOrderId)).filter
          (fun c => !((cafSucc orders env).contains c)) := by
    unfold cancelAllCore
    rw [List.map_append, List.map_map, List.map_map]
    have hid1 : ((fun (r : String × Bool) => r.1) ∘
        (fun (c : String) => (c, true))) = (id : String → String) := rfl
    have hid2 : ((fun (r : String × Bool) => r.1) ∘
        (fun (c : String) => (c, false))) = (id : String → String) := rfl
    rw [hid1, hid2, List.map_id, List.map_id]
  rw [hmap, cntStr_append]
  by_cases hmem : cid ∈ (cafIncomplete orders).map (fun o => o.clientOrderId)
  · rw [if_pos hmem]
    have h1 : cntO (cafIncomplete orders) cid = 1 := by
      rw [hIcnt, if_pos hmem]
    by_cases hs : cid ∈ cafSucc orders env
    · have hpos : 0 < cntStr (cafSucc orders env) cid :=
        mem_cntStr_pos _ _ hs
      have hflt : cntStr (((cafIncomplete orders).map
          (fun o => o.clientOrderId)).filter
            (fun c => !((cafSucc orders env).contains c))) cid = 0 := by
        by_contra hne
        have hp : 0 < cntStr (((cafIncomplete orders).map
            (fun o => o.clientOrderId)).filter
              (fun c => !((cafSucc orders env).contains c))) cid :=
          Nat.pos_of_ne_zero hne
        have hm := cntStr_pos_mem _ _ hp
        have hpred := (List.mem_filter.mp hm).2
        have hnotin : cid ∉ cafSucc orders env := by
          simpa using hpred
        exact hnotin hs
      rw [hflt]
      omega
    · have hz : cntStr (cafSucc orders env) cid = 0 := by
        by_contra hne
        exact hs (cntStr_pos_mem _ _ (Nat.pos_of_ne_zero hne))
      have hcf : (cafSucc orders env).contains cid = false := by
        cases hcc : (cafSucc orders env).contains cid with
        | false => rfl
        | true =>
          exfalso
          apply hs
          simpa using hcc
      have hmf : cid ∈ ((cafIncomplete orders).map
          (fun o => o.clientOrderId)).filter
            (fun c => !((cafSucc orders env).contains c)) := by
        refine List.mem_filter.mpr ⟨hmem, ?_⟩
        show (!(cafSucc orders env).contains cid) = true
        rw [hcf]
        rfl
      have hp1 : 0 < cntStr (((cafIncomplete orders).map
          (fun o => o.clientOrderId)).filter
            (fun c => !((cafSucc orders env).contains c))) cid :=
        mem_cntStr_pos _ _ hmf
      have hub : cntStr (((cafIncomplete orders).map
          (fun o => o.clientOrderId)).filter
            (fun c => !((cafSucc orders env).contains c))) cid ≤
          cntStr ((cafIncomplete orders).map
            (fun o => o.clientOrderId)) cid := cntStr_filter_le _ _ _
      have h1b : cntStr ((cafIncomplete orders).map
          (fun o => o.clientOrderId)) cid = 1 := h1
      omega
  · rw [if_neg hmem]
    have h0 : cntO (cafIncomplete orders) cid = 0 := by
      rw [hIcnt, if_neg hmem]
    have hub : cntStr (((cafIncomplete orders).map
        (fun o => o.clientOrderId)).filter
          (fun c => !((cafSucc orders env).contains c))) cid ≤
        cntStr ((cafIncomplete orders).map
          (fun o => o.clientOrderId)) cid := cntStr_filter_le _ _ _
    have h00 : cntStr ((cafIncomplete orders).map
        (fun o => o.clientOrderId)) cid = 0 := h0
    omega

/-- Claim C1 (amended): with the incomplete orders carrying distinct client
ids and every chunk response acknowledging each venue id at most once,
cancel_all returns exactly one result per not-yet-done order (no
duplicates, no omissions, nothing else); and since cancelAll is a total
function over every environment — refresh exceptions, request failures and
timeout aborts included — it never raises to the caller. -/
theorem c1_cancel_all_exactly_one_amended (orders : List IFOrder)
    (env : CancelEnv)
    (hn : ((orders.filter (fun o => !o.isDone)).map
      (fun o => o.clientOrderId)).Nodup)
    (hresp : ∀ j, ackNodupResp (env.chunkResp j)) :
    cancelAllExactlyOne orders env := by
  intro cid
  rw [← cntStr_eq_count]
  by_cases hemp : (orders.filter (fun o => !o.isDone)).isEmpty = true
  · have hnil : orders.filter (fun o => !o.isDone) = [] := by
      cases hh : orders.filter (fun o => !o.isDone) with
      | nil => rfl
      | cons a l =>
        rw [hh] at hemp
        simp at hemp
    have hca : cancelAll orders env = [] := by
      simp [cancelAll, hnil]
    rw [hca, hnil]
    simp [cntStr]
  · have hempf : (orders.filter (fun o => !o.isDone)).isEmpty = false := by
      simpa using hemp
    rw [cancelAll_eq_core orders env hempf]
    exact cancelAllCore_cnt orders env hn hresp cid

/-- The order of the C1 witness run. -/
def c1wOrder : IFOrder :=
  { clientOrderId := "HBOT-C1W", exchangeOrderId := some "11",
    tradingPair := "BTC-USDT", isDone := false }

/-- A well-behaved environment: one chunk response acknowledging venue id
11 exactly once with a truthy flag. -/
def c1wEnv : CancelEnv :=
  { refresh := fun _ => none,
    symbolFor := fun _ => some "BTC_USDT",
    chunkResp := fun _ => some
      [JVal.jdict [("order_id", JVal.jstr "11"), ("result", JVal.jbool true)]],
    indivSuccess := fun _ => false,
    abortAfter := none }

theorem c1_witness : cancelAllExactlyOne [c1wOrder] c1wEnv :=
  c1_cancel_all_exactly_one_amended [c1wOrder] c1wEnv (by decide)
    (fun _ => show (([JVal.jdict [("order_id", JVal.jstr "11"),
      ("result", JVal.jbool true)]] : List JVal).filterMap
        ackIdOf).Nodup by decide)
